import Mathlib

/-!
# DragDropBuilder: the element collection, the drag session and persistence

A shallow embedding of `src/components/DragDropBuilder.jsx`.

The React component keeps three pieces of state: `elements` (the collection),
`draggedItem` (the drag session) and the ref `nextId` (the id counter); the
browser adds the `localStorage` slot `"elements"`.  Every event handler of the
component is a function from that state to the state after the handler has run,
together with the exception it threw, if any.

JavaScript values are embedded as `JSVal`.  Numbers are mathematical integers
(`num`), which is exact on the safe-integer range in which the id counter
lives; a number literal with a fractional value is kept as an exact decimal
(`frac`).  Strings are sequences of Unicode scalar values.
-/

namespace JS

/-- JavaScript values that the component can hold in its state. -/
inductive JSVal where
  | undefined
  | null
  | bool (b : Bool)
  | num (n : Int)
  | frac (m : Int) (k : Nat)
  | str (s : String)
  | arr (xs : List JSVal)
  | obj (fields : List (String × JSVal))

/-- The exceptions the modelled code can throw. -/
inductive JSError where
  | TypeError
  | SyntaxError
  deriving DecidableEq, Repr

/-- Property read `o[k]` on the own properties of an object: the value of the
first field named `k`, `undefined` when there is none. -/
def lookupProp (k : String) : List (String × JSVal) → JSVal
  | [] => .undefined
  | (k1, v) :: fs => if k1 = k then v else lookupProp k fs

/-- The array index that `start + len` or `start` denotes in
`Array.prototype.splice`: a negative `start` counts from the end and is clamped
at `0`, a non-negative one is clamped at the length. -/
def spliceStart (len : Nat) (start : Int) : Nat :=
  if start < 0 then ((len : Int) + start).toNat else min start.toNat len

/-- `Array.prototype.splice(start, deleteCount, ...items)`: the removed elements
and the array after the call. -/
def splice (xs : List JSVal) (start : Int) (deleteCount : Int) (items : List JSVal) :
    List JSVal × List JSVal :=
  let s := spliceStart xs.length start
  let dc := min deleteCount.toNat (xs.length - s)
  ((xs.drop s).take dc, xs.take s ++ items ++ xs.drop (s + dc))

/-- `Array.prototype.findIndex(p)` from position `i` on: the index of the first
element for which the callback returns true, `-1` when there is none; an
exception of the callback propagates. -/
def findIndexFrom (p : JSVal → Except JSError Bool) : List JSVal → Int → Except JSError Int
  | [], _ => .ok (-1)
  | x :: xs, i =>
    match p x with
    | .error e => .error e
    | .ok true => .ok i
    | .ok false => findIndexFrom p xs (i + 1)

/-- `xs.findIndex(p)` on a value: only an array has the method. -/
def findIndex (p : JSVal → Except JSError Bool) : JSVal → Except JSError Int
  | .arr xs => findIndexFrom p xs 0
  | _ => .error .TypeError

/-- `Array.prototype.filter(p)` with a callback that may throw. -/
def filterFrom (p : JSVal → Except JSError Bool) : List JSVal → Except JSError (List JSVal)
  | [] => .ok []
  | x :: xs =>
    match p x with
    | .error e => .error e
    | .ok b =>
      match filterFrom p xs with
      | .error e => .error e
      | .ok ys => .ok (if b then x :: ys else ys)

/-- `Array.prototype.map(f)` with a callback that may throw. -/
def mapFrom (f : JSVal → Except JSError JSVal) : List JSVal → Except JSError (List JSVal)
  | [] => .ok []
  | x :: xs =>
    match f x with
    | .error e => .error e
    | .ok y =>
      match mapFrom f xs with
      | .error e => .error e
      | .ok ys => .ok (y :: ys)

/-- The elements that the spread `[...v]` iterates over: the entries of an
array, the characters of a string; any other value is not iterable. -/
def spread : JSVal → Except JSError (List JSVal)
  | .arr xs => .ok xs
  | .str s => .ok (s.data.map fun c => .str (String.singleton c))
  | _ => .error .TypeError

/-- The test `el.id === id` for an integer `id`: reading a property of
`undefined` or `null` throws, an object answers with its `id` field, every
other value has no `id`. -/
def idIs (id : Int) : JSVal → Except JSError Bool
  | .undefined => .error .TypeError
  | .null => .error .TypeError
  | .obj fs =>
    match lookupProp "id" fs with
    | .num n => .ok (decide (n = id))
    | _ => .ok false
  | _ => .ok false

/-- The assignment `o[k] = v` on the own string-keyed properties of an object:
an existing property keeps its place, a new one goes to the end. -/
def setProp (k : String) (v : JSVal) : List (String × JSVal) → List (String × JSVal)
  | [] => [(k, v)]
  | (k1, v1) :: fs => if k1 = k then (k1, v) :: fs else (k1, v1) :: setProp k v fs

/-- The number that `el.id` reads on an entry of the collection, when it reads
one. -/
def entryId : JSVal → Option Int
  | .obj fs =>
    match lookupProp "id" fs with
    | .num n => some n
    | _ => none
  | _ => none

end JS

open JS

/-- A placed block: the record `{ id, type, content }` built in
`handleCanvasDrop`. -/
structure Element where
  id : Int
  type : String
  content : String
  deriving DecidableEq, Repr

/-- The object literal `{ id, type, content }` of an element. -/
def Element.toJS (e : Element) : JSVal :=
  .obj [("id", .num e.id), ("type", .str e.type), ("content", .str e.content)]

/-- The array of the records of a list of elements. -/
def ofElements (els : List Element) : JSVal :=
  .arr (els.map Element.toJS)

/-- The array entry of a slot: the record of an element, or `undefined`. -/
def slotJS : Option Element → JSVal
  | none => .undefined
  | some e => e.toJS

/-- An entry of the collection is the record of an element or `undefined`. -/
def IsSlot (x : JSVal) : Prop := x = .undefined ∨ ∃ e : Element, x = e.toJS

/-- The position of the first element with the given id, the length of the
list when there is none. -/
def indexOfId (id : Int) : List Element → Nat
  | [] => 0
  | e :: es => if e.id = id then 0 else indexOfId id es + 1

namespace JSON

/-- The decimal digit character of `d < 10`. -/
def digitChar (d : Nat) : Char := Char.ofNat (48 + d)

/-- The decimal digits of a natural number, most significant first; `fuel`
bounds the number of digits. -/
def natDigits : Nat → Nat → List Char
  | 0, _ => []
  | fuel + 1, n =>
    if n < 10 then [digitChar n] else natDigits fuel (n / 10) ++ [digitChar (n % 10)]

/-- `Number::toString` of a natural number. -/
def natToString (n : Nat) : List Char := natDigits (n + 1) n

/-- `Number::toString` of an integer: decimal digits with a leading `-` for a
negative one.  This is the text JavaScript writes for every safe integer; from
`1e21` on JavaScript writes an exponent form. -/
def intToString (n : Int) : List Char :=
  if n < 0 then '-' :: natToString (-n).toNat else natToString n.toNat

/-- The digits of `n` padded with leading zeros to `k` digits. -/
def padDigits : Nat → Nat → List Char
  | 0, _ => []
  | k + 1, n => padDigits k (n / 10) ++ [digitChar (n % 10)]

/-- The decimal notation of the non-integral number `m / 10 ^ k`, which is what
`Number::toString` writes for magnitudes from `1e-6` on. -/
def fracToString (m : Int) (k : Nat) : List Char :=
  (if m < 0 then ['-'] else []) ++ natToString (m.natAbs / 10 ^ k) ++ '.' ::
    padDigits k (m.natAbs % 10 ^ k)

/-- The lowercase hexadecimal digit of `d < 16`. -/
def hexDigit (d : Nat) : Char :=
  if d < 10 then Char.ofNat (48 + d) else Char.ofNat (87 + d)

/-- The four hexadecimal digits of a code unit. -/
def hex4 (n : Nat) : List Char :=
  [hexDigit (n / 4096 % 16), hexDigit (n / 256 % 16), hexDigit (n / 16 % 16), hexDigit (n % 16)]

/-- The text that `QuoteJSONString` writes for one character: the two-character
escapes, `\uXXXX` for the other control characters, the character itself
otherwise. -/
def quoteChar (c : Char) : List Char :=
  if c = '\x08' then ['\x5c', 'b']
  else if c = '\x09' then ['\x5c', 't']
  else if c = '\x0a' then ['\x5c', 'n']
  else if c = '\x0c' then ['\x5c', 'f']
  else if c = '\x0d' then ['\x5c', 'r']
  else if c = '\x22' then ['\x5c', '\x22']
  else if c = '\x5c' then ['\x5c', '\x5c']
  else if c.toNat < 32 then '\x5c' :: 'u' :: hex4 c.toNat
  else [c]

/-- The escaped body of a string, without the surrounding quotes. -/
def quoteBody : List Char → List Char
  | [] => []
  | c :: cs => quoteChar c ++ quoteBody cs

/-- `QuoteJSONString`. -/
def quote (s : String) : List Char :=
  '\x22' :: quoteBody s.data ++ ['\x22']

/-- The pieces of an array or object joined by commas. -/
def joinComma : List (List Char) → List Char
  | [] => []
  | [t] => t
  | t :: u :: ts => t ++ ',' :: joinComma (u :: ts)

mutual
/-- `SerializeJSONProperty`: the text of a value, `none` for `undefined`. -/
def serialize : JSVal → Option (List Char)
  | .undefined => none
  | .null => some ['n', 'u', 'l', 'l']
  | .bool true => some ['t', 'r', 'u', 'e']
  | .bool false => some ['f', 'a', 'l', 's', 'e']
  | .num n => some (intToString n)
  | .frac m k => some (fracToString m k)
  | .str s => some (quote s)
  | .arr xs => some ('[' :: joinComma (serializeElems xs) ++ [']'])
  | .obj fs => some ('\x7b' :: joinComma (serializeProps fs) ++ ['\x7d'])
/-- `SerializeJSONArray`: the texts of the entries, `null` for `undefined`. -/
def serializeElems : List JSVal → List (List Char)
  | [] => []
  | x :: xs =>
    (match serialize x with
     | none => ['n', 'u', 'l', 'l']
     | some t => t) :: serializeElems xs
/-- `SerializeJSONObject`: the texts `"key":value` of the properties whose value
is not `undefined`. -/
def serializeProps : List (String × JSVal) → List (List Char)
  | [] => []
  | (k, v) :: fs =>
    match serialize v with
    | none => serializeProps fs
    | some t => (quote k ++ ':' :: t) :: serializeProps fs
end

/-- `JSON.stringify(value)`: a string, or `undefined` (`none`). -/
def stringify (v : JSVal) : Option String :=
  (serialize v).map String.mk

/-- JSON whitespace. -/
def isWs (c : Char) : Bool :=
  c = ' ' || c = '\x09' || c = '\x0a' || c = '\x0d'

/-- The input after leading whitespace. -/
def skipWs : List Char → List Char
  | [] => []
  | c :: cs => if isWs c then skipWs cs else c :: cs

/-- A decimal digit. -/
def isDigit (c : Char) : Bool :=
  48 ≤ c.toNat && c.toNat ≤ 57

/-- The number that a list of decimal digits denotes, after `acc`. -/
def digitsVal (acc : Nat) : List Char → Nat
  | [] => acc
  | c :: cs => digitsVal (10 * acc + (c.toNat - 48)) cs

/-- The value of a hexadecimal digit of either case. -/
def hexVal (c : Char) : Option Nat :=
  if 48 ≤ c.toNat ∧ c.toNat ≤ 57 then some (c.toNat - 48)
  else if 97 ≤ c.toNat ∧ c.toNat ≤ 102 then some (c.toNat - 87)
  else if 65 ≤ c.toNat ∧ c.toNat ≤ 70 then some (c.toNat - 55)
  else none

/-- The code unit of four hexadecimal digits, and the input after them. -/
def parseHex4 : List Char → Option (Nat × List Char)
  | a :: b :: c :: d :: rest =>
    match hexVal a, hexVal b, hexVal c, hexVal d with
    | some x, some y, some z, some w => some (((x * 16 + y) * 16 + z) * 16 + w, rest)
    | _, _, _, _ => none
  | _ => none

/-- The character of a two-character escape `\e`. -/
def unescape (e : Char) : Option Char :=
  if e = '\x22' then some '\x22'
  else if e = '\x5c' then some '\x5c'
  else if e = '/' then some '/'
  else if e = 'b' then some '\x08'
  else if e = 'f' then some '\x0c'
  else if e = 'n' then some '\x0a'
  else if e = 'r' then some '\x0d'
  else if e = 't' then some '\x09'
  else none

/-- The characters that a pending high surrogate without its low half leaves in
the string: such a code unit is not a Unicode scalar value and is kept as
U+FFFD. -/
def flush (pending : Option Nat) : List Char :=
  match pending with
  | none => []
  | some _ => [Char.ofNat 0xFFFD]

/-- The body of a string literal after the opening quote: the characters of the
string and the input after the closing quote.  `pending` is a high surrogate
read from a `\u` escape that waits for its low half. -/
def parseString : Nat → Option Nat → List Char → Option (List Char × List Char)
  | 0, _, _ => none
  | _ + 1, _, [] => none
  | fuel + 1, pending, c :: cs =>
    if c = '\x22' then some (flush pending, cs)
    else if c = '\x5c' then
      match cs with
      | [] => none
      | e :: cs1 =>
        if e = 'u' then
          match parseHex4 cs1 with
          | none => none
          | some (u, cs2) =>
            if 0xD800 ≤ u ∧ u < 0xDC00 then
              (parseString fuel (some u) cs2).map fun r => (flush pending ++ r.1, r.2)
            else if 0xDC00 ≤ u ∧ u < 0xE000 then
              match pending with
              | some hi =>
                (parseString fuel none cs2).map fun r =>
                  (Char.ofNat (0x10000 + (hi - 0xD800) * 0x400 + (u - 0xDC00)) :: r.1, r.2)
              | none =>
                (parseString fuel none cs2).map fun r => (Char.ofNat 0xFFFD :: r.1, r.2)
            else
              (parseString fuel none cs2).map fun r => (flush pending ++ Char.ofNat u :: r.1, r.2)
        else
          match unescape e with
          | none => none
          | some ch =>
            (parseString fuel none cs1).map fun r => (flush pending ++ ch :: r.1, r.2)
    else if c.toNat < 32 then none
    else (parseString fuel none cs).map fun r => (flush pending ++ c :: r.1, r.2)

/-- The number `m * 10 ^ (-k)` with trailing zeros of the fraction removed: an
integer when none is left. -/
def mkDecimal : Nat → Int → JSVal
  | 0, m => .num m
  | k + 1, m => if m % 10 = 0 then mkDecimal k (m / 10) else .frac m (k + 1)

/-- The leading decimal digits of the input, and the input after them. -/
def spanDigits : List Char → List Char × List Char
  | [] => ([], [])
  | c :: cs =>
    if isDigit c then ((spanDigits cs).1.cons c, (spanDigits cs).2) else ([], c :: cs)

/-- The integer part of a number: a single `0`, or digits that start with a
non-zero digit. -/
def parseIntPart : List Char → Option (List Char × List Char)
  | [] => none
  | c :: r =>
    if c = '0' then some (['0'], r)
    else if isDigit c then some (spanDigits (c :: r))
    else none

/-- The optional fraction of a number: a `.` and at least one digit. -/
def parseFracPart : List Char → Option (List Char × List Char)
  | [] => some ([], [])
  | c :: r =>
    if c = '.' then
      (if (spanDigits r).1 = [] then none else some (spanDigits r))
    else some ([], c :: r)

/-- The digits of an exponent after its optional sign. -/
def parseExpDigits (neg : Bool) (cs : List Char) : Option (Int × List Char) :=
  if (spanDigits cs).1 = [] then none
  else
    some ((if neg then -(digitsVal 0 (spanDigits cs).1 : Int)
           else (digitsVal 0 (spanDigits cs).1 : Int)), (spanDigits cs).2)

/-- The optional exponent of a number: `e` or `E`, an optional sign and at
least one digit. -/
def parseExpPart : List Char → Option (Int × List Char)
  | [] => some (0, [])
  | c :: r =>
    if c = 'e' ∨ c = 'E' then
      match r with
      | [] => none
      | s :: t =>
        if s = '-' then parseExpDigits true t
        else if s = '+' then parseExpDigits false t
        else parseExpDigits false (s :: t)
    else some (0, c :: r)

/-- The number with the given sign, integer digits `ds`, fraction digits `fs`
and exponent `e`. -/
def mkNumber (neg : Bool) (ds fs : List Char) (e : Int) : JSVal :=
  let m : Int := digitsVal 0 (ds ++ fs)
  let sm : Int := if neg then -m else m
  let scale : Int := (fs.length : Int) - e
  if scale ≤ 0 then .num (sm * 10 ^ (-scale).toNat) else mkDecimal scale.toNat sm

/-- A JSON number after its optional sign: int frac? exp?. -/
def parseUnsigned (neg : Bool) (cs : List Char) : Option (JSVal × List Char) :=
  match parseIntPart cs with
  | none => none
  | some (ds, cs2) =>
    match parseFracPart cs2 with
    | none => none
    | some (fs, cs3) =>
      match parseExpPart cs3 with
      | none => none
      | some (e, cs4) => some (mkNumber neg ds fs e, cs4)

/-- A JSON number: `-`? int frac? exp?. -/
def parseNumber : List Char → Option (JSVal × List Char)
  | [] => none
  | c :: r => if c = '-' then parseUnsigned true r else parseUnsigned false (c :: r)

/-- The input after the given literal, when it starts with it. -/
def expect : List Char → List Char → Option (List Char)
  | [], cs => some cs
  | _ :: _, [] => none
  | l :: ls, c :: cs => if l = c then expect ls cs else none

/-- The number of an array index key: a canonical numeric string below
`2 ^ 32 - 1`. -/
def arrayIndex (k : String) : Option Nat :=
  match k.data with
  | [] => none
  | c :: cs =>
    if (c :: cs).all isDigit ∧ (c ≠ '0' ∨ cs = []) ∧ digitsVal 0 (c :: cs) < 4294967295 then
      some (digitsVal 0 (c :: cs))
    else none

/-- Whether the object has an own property of that name. -/
def hasProp (k : String) : List (String × JSVal) → Bool
  | [] => false
  | (k1, _) :: fs => k1 = k || hasProp k fs

/-- A new array-index property takes its place among the index keys, which come
first in ascending order. -/
def insertIndexProp (i : Nat) (k : String) (v : JSVal) :
    List (String × JSVal) → List (String × JSVal)
  | [] => [(k, v)]
  | (k1, v1) :: fs =>
    match arrayIndex k1 with
    | some j => if j < i then (k1, v1) :: insertIndexProp i k v fs else (k, v) :: (k1, v1) :: fs
    | none => (k, v) :: (k1, v1) :: fs

/-- `CreateDataProperty` on the object that `JSON.parse` builds: a repeated
key overwrites the value in place, a new array-index key is sorted in, any other
new key goes to the end. -/
def defineProp (k : String) (v : JSVal) (fs : List (String × JSVal)) : List (String × JSVal) :=
  match arrayIndex k with
  | none => setProp k v fs
  | some i => if hasProp k fs then setProp k v fs else insertIndexProp i k v fs

mutual
/-- A JSON value at the head of the input (no leading whitespace), and the
input after it. -/
def parseValue : Nat → List Char → Option (JSVal × List Char)
  | 0, _ => none
  | _ + 1, [] => none
  | fuel + 1, c :: cs =>
    if c = 'n' then (expect ['u', 'l', 'l'] cs).map fun r => (.null, r)
    else if c = 't' then (expect ['r', 'u', 'e'] cs).map fun r => (.bool true, r)
    else if c = 'f' then (expect ['a', 'l', 's', 'e'] cs).map fun r => (.bool false, r)
    else if c = '\x22' then
      (parseString cs.length none cs).map fun r => (.str (String.mk r.1), r.2)
    else if c = '[' then
      match skipWs cs with
      | [] => none
      | d :: ds =>
        if d = ']' then some (.arr [], ds)
        else (parseElems fuel (d :: ds)).map fun r => (.arr r.1, r.2)
    else if c = '\x7b' then
      match skipWs cs with
      | [] => none
      | d :: ds =>
        if d = '\x7d' then some (.obj [], ds)
        else (parseMembers fuel [] (d :: ds)).map fun r => (.obj r.1, r.2)
    else parseNumber (c :: cs)
/-- The elements of a non-empty array up to the closing bracket. -/
def parseElems : Nat → List Char → Option (List JSVal × List Char)
  | 0, _ => none
  | fuel + 1, cs =>
    match parseValue fuel cs with
    | none => none
    | some (v, rest) =>
      match skipWs rest with
      | [] => none
      | d :: ds =>
        if d = ',' then (parseElems fuel (skipWs ds)).map fun r => (v :: r.1, r.2)
        else if d = ']' then some ([v], ds)
        else none
/-- The members of a non-empty object up to the closing brace, added to the
properties read so far. -/
def parseMembers : Nat → List (String × JSVal) → List Char →
    Option (List (String × JSVal) × List Char)
  | 0, _, _ => none
  | _ + 1, _, [] => none
  | fuel + 1, acc, c :: cs =>
    if c = '\x22' then
      match parseString cs.length none cs with
      | none => none
      | some (k, rest) =>
        match skipWs rest with
        | [] => none
        | d :: ds =>
          if d = ':' then
            match parseValue fuel (skipWs ds) with
            | none => none
            | some (v, rest1) =>
              match skipWs rest1 with
              | [] => none
              | d1 :: ds1 =>
                if d1 = ',' then parseMembers fuel (defineProp (String.mk k) v acc) (skipWs ds1)
                else if d1 = '\x7d' then some (defineProp (String.mk k) v acc, ds1)
                else none
          else none
    else none
end

/-- `JSON.parse(text)`: the value of a JSON text, a `SyntaxError` when the text
is not one.  The fuel covers every input, since two steps of the recursion
consume at least one character (`parse_fuel`). -/
def parse (text : String) : Except JSError JSVal :=
  match parseValue (2 * text.length + 2) (skipWs text.data) with
  | none => .error .SyntaxError
  | some (v, rest) => if skipWs rest = [] then .ok v else .error .SyntaxError

/-- The text that `JSON.stringify` writes for the record of an element. -/
def recordText (e : Element) : List Char :=
  '\x7b' :: (quote "id" ++ ':' :: (intToString e.id ++ ',' :: (quote "type" ++ ':' ::
    (quote e.type ++ ',' :: (quote "content" ++ ':' :: (quote e.content ++ ['\x7d']))))))

end JSON

namespace DragDropBuilder

/-- The value of `draggedItem` while a drag is in flight:
`{ type, isNew: true }` from the sidebar, `{ id, isNew: false }` from a placed
element, whose id is an integer as in the data model. -/
inductive DraggedItem where
  | sidebar (type : String)
  | element (id : Int)
  deriving DecidableEq, Repr

/-- The truth value of `!draggedItem.id`: a sidebar item has no `id`
(`undefined`), and the number `0` is falsy. -/
def DraggedItem.idFalsy : DraggedItem → Bool
  | .sidebar _ => true
  | .element id => decide (id = 0)

/-- The state of the component: `elements`, `draggedItem` (`none` is `null`),
`nextId.current`, and the `localStorage` entry `"elements"` (`none` when there
is no entry). -/
structure State where
  elements : JSVal
  draggedItem : Option DraggedItem
  nextId : Int
  storage : Option String

/-- The state after a handler has run, and the exception it threw, if any. -/
structure Outcome where
  state : State
  thrown : Option JSError

/-- The state of a freshly mounted component: `useState([])`,
`useState(null)`, `useRef(1)`. -/
def init (storage : Option String) : State :=
  { elements := .arr [], draggedItem := none, nextId := 1, storage := storage }

/-- Source: `handleSidebarDragStart`. -/
def handleSidebarDragStart (type : String) (st : State) : State :=
  { st with draggedItem := some (.sidebar type) }

/-- Source: `handleElementDragStart`. -/
def handleElementDragStart (id : Int) (st : State) : State :=
  { st with draggedItem := some (.element id) }

/-- Source: `handleCanvasDrop`.  The counter is incremented while the object
literal is evaluated, before the spread of `elements`. -/
def handleCanvasDrop (st : State) : Outcome :=
  match st.draggedItem with
  | none => { state := st, thrown := none }
  | some (.sidebar type) =>
    let newElement : Element := { id := st.nextId, type := type, content := "New " ++ type }
    let st1 := { st with nextId := st.nextId + 1 }
    match spread st.elements with
    | .error e => { state := st1, thrown := some e }
    | .ok xs =>
      { state := { st1 with elements := .arr (xs ++ [newElement.toJS]), draggedItem := none },
        thrown := none }
  | some (.element _) => { state := { st with draggedItem := none }, thrown := none }

/-- Source: `handleElementDrop`. -/
def handleElementDrop (targetId : Int) (st : State) : Outcome :=
  match st.draggedItem with
  | none => { state := st, thrown := none }
  | some d =>
    if d.idFalsy then { state := st, thrown := none }
    else
      match d with
      | .sidebar _ => { state := st, thrown := none }
      | .element id =>
        if id = targetId then { state := st, thrown := none }
        else
          match findIndex (idIs id) st.elements with
          | .error e => { state := st, thrown := some e }
          | .ok sourceIndex =>
            match findIndex (idIs targetId) st.elements with
            | .error e => { state := st, thrown := some e }
            | .ok targetIndex =>
              match spread st.elements with
              | .error e => { state := st, thrown := some e }
              | .ok newElements =>
                let r1 := splice newElements sourceIndex 1 []
                let removed := r1.1.headD .undefined
                let r2 := splice r1.2 targetIndex 0 [removed]
                { state := { st with elements := .arr r2.2, draggedItem := none },
                  thrown := none }

/-- Source: `handleDelete`; the updater `prevElements.filter(...)` runs on the
current collection. -/
def handleDelete (id : Int) (st : State) : Outcome :=
  match st.elements with
  | .arr xs =>
    match filterFrom (fun el => (idIs id el).map not) xs with
    | .error e => { state := st, thrown := some e }
    | .ok ys => { state := { st with elements := .arr ys }, thrown := none }
  | _ => { state := st, thrown := some .TypeError }

/-- The callback of `handleEdit`:
`el.id === id ? { ...el, content: newContent } : el`. -/
def editOne (id : Int) (newContent : String) (el : JSVal) : Except JSError JSVal :=
  match idIs id el with
  | .error e => .error e
  | .ok false => .ok el
  | .ok true =>
    match el with
    | .obj fs => .ok (.obj (setProp "content" (.str newContent) fs))
    | _ => .ok el

/-- Source: `handleEdit`; the updater `prevElements.map(...)` runs on the
current collection. -/
def handleEdit (id : Int) (newContent : String) (st : State) : Outcome :=
  match st.elements with
  | .arr xs =>
    match mapFrom (editOne id newContent) xs with
    | .error e => { state := st, thrown := some e }
    | .ok ys => { state := { st with elements := .arr ys }, thrown := none }
  | _ => { state := st, thrown := some .TypeError }

/-- Source: `saveHandler`.  `setItem` stores the string of its argument, which
is `"undefined"` when `JSON.stringify` returns `undefined`. -/
def saveHandler (st : State) : Outcome :=
  { state :=
      { st with
        storage := some (match JSON.stringify st.elements with
          | some s => s
          | none => "undefined") },
    thrown := none }

/-- Source: `loadHandler`.  `getItem` returns `null` when there is no entry, and
`JSON.parse` reads the string `"null"` of it.  The text is parsed twice, for
`console.log` and for `setElements`; an exception of the first call leaves the
handler before `setElements`. -/
def loadHandler (st : State) : Outcome :=
  let text : String := match st.storage with
    | some s => s
    | none => "null"
  match JSON.parse text with
  | .error e => { state := st, thrown := some e }
  | .ok _ =>
    match JSON.parse text with
    | .error e => { state := st, thrown := some e }
    | .ok v => { state := { st with elements := v }, thrown := none }

/-- The drop of the dragged item on a placed element.  The `onDrop` of the
`DroppedElement` (line 86) calls `handleElementDrop`; the element lies inside
the canvas `div` and nothing stops the propagation, so the event then reaches
the `onDrop` of the canvas (line 214), `handleCanvasDrop`.  Both handlers are
closures of the same render and read its `elements` and `draggedItem`; the
updates they queue are applied in call order, and the first exception is the
one reported.  `handleCanvasDrop` sets the session whenever there is one and
moves the counter; it sets `elements` only for a sidebar session, for which
`handleElementDrop` sets nothing, so for the session of a placed element the
collection is the one `handleElementDrop` has set. -/
def dropOnElement (targetId : Int) (st : State) : Outcome :=
  let o1 := handleElementDrop targetId st
  let o2 := handleCanvasDrop st
  { state :=
      { o2.state with
        elements := match st.draggedItem with
          | some (.element _) => o1.state.elements
          | _ => o2.state.elements },
    thrown := match o1.thrown with
      | some e => some e
      | none => o2.thrown }

/-- `Number.isSafeInteger`: the integers on which a JavaScript number and its
decimal text are exact, which are the numbers of this embedding. -/
def isSafeInteger (n : Int) : Prop :=
  -(2 ^ 53) < n ∧ n < 2 ^ 53

/-- The store operations of the specification, by the events that trigger
them. -/
inductive Op where
  | insertNew (type : String)
  | delete (id : Int)
  | reorder (sourceId targetId : Int)
  | edit (id : Int) (newContent : String)

/-- The state after one operation: `insertNew` is a drag from the sidebar
dropped on the canvas, `reorder` a drag of a placed element dropped on an
element, `delete` and `edit` the two callbacks.  A handler that throws leaves
the state it had reached. -/
def applyOp (st : State) : Op → State
  | .insertNew type => (handleCanvasDrop (handleSidebarDragStart type st)).state
  | .delete id => (handleDelete id st).state
  | .reorder sourceId targetId =>
    (handleElementDrop targetId (handleElementDragStart sourceId st)).state
  | .edit id newContent => (handleEdit id newContent st).state

/-- The state after a sequence of operations. -/
def run (st : State) (ops : List Op) : State :=
  ops.foldl applyOp st

/-- The invariant of the store: the collection is an array whose entries are
element records or `undefined`, the ids it holds are pairwise distinct, and
each of them is below the counter. -/
def Inv (st : State) : Prop :=
  ∃ xs : List JSVal, st.elements = .arr xs ∧ (∀ x ∈ xs, IsSlot x) ∧
    (xs.filterMap entryId).Nodup ∧ ∀ n ∈ xs.filterMap entryId, n < st.nextId

/-- The value of `elements.findIndex((el) => el.id === id)` on a collection of
elements. -/
def findIndexOfId (id : Int) (els : List Element) : Int :=
  if indexOfId id els < els.length then (indexOfId id els : Int) else -1

/-- Modelled on the spec's words: `reorder(sourceId, targetId)` of §4.1, which
removes the source element and reinserts it at the index that the target has in
the collection after the removal. -/
def reorderSpec (sourceId targetId : Int) (els : List Element) : List Element :=
  if sourceId = targetId ∨ ¬ indexOfId sourceId els < els.length then els
  else
    match els[indexOfId sourceId els]? with
    | none => els
    | some e =>
      let rest := els.eraseIdx (indexOfId sourceId els)
      rest.insertIdx (indexOfId targetId rest) e

end DragDropBuilder

namespace DroppedElement

/-- The local state of one `DroppedElement`: `editing` and `content`. -/
structure EditState where
  editing : Bool
  content : String
  deriving DecidableEq, Repr

/-- The state at mount: `useState(false)` and
`useState(element.content || "Edit this content")`; the empty string is
falsy. -/
def mount (element : Element) : EditState :=
  { editing := false,
    content := if element.content = "" then "Edit this content" else element.content }

/-- Source: `handleEdit` of `DroppedElement` (the Edit button). -/
def handleEdit (s : EditState) : EditState :=
  { s with editing := true }

/-- Source: `handleContentChange`. -/
def handleContentChange (newContent : String) (s : EditState) : EditState :=
  { s with content := newContent }

/-- Source: `handleBlur`: leaves edit mode and calls `onEdit(element.id, content)`,
which is `handleEdit` of the builder. -/
def handleBlur (element : Element) (s : EditState) (st : DragDropBuilder.State) :
    EditState × DragDropBuilder.Outcome :=
  ({ s with editing := false }, DragDropBuilder.handleEdit element.id s.content st)

/-- Source: `handleKeyDown`: Enter without shift commits. -/
def handleKeyDown (key : String) (shiftKey : Bool) (element : Element) (s : EditState)
    (st : DragDropBuilder.State) : EditState × DragDropBuilder.Outcome :=
  if key = "Enter" ∧ shiftKey = false then handleBlur element s st
  else (s, { state := st, thrown := none })

end DroppedElement

namespace JS

theorem idIs_toJS (id : Int) (e : Element) : idIs id e.toJS = .ok (decide (e.id = id)) := by
  simp [idIs, Element.toJS, lookupProp]

theorem indexOfId_le (id : Int) (els : List Element) : indexOfId id els ≤ els.length := by
  induction els with
  | nil => simp [indexOfId]
  | cons e es ih =>
    simp only [indexOfId]
    split
    · simp
    · simp; omega

theorem indexOfId_lt_iff (id : Int) (els : List Element) :
    indexOfId id els < els.length ↔ id ∈ els.map (fun e => e.id) := by
  induction els with
  | nil => simp [indexOfId]
  | cons e es ih =>
    simp only [indexOfId]
    split
    · next h => simp [h]
    · next h =>
      have : ¬ id = e.id := fun h1 => h h1.symm
      simp [this] at ih ⊢
      exact ih

theorem findIndexFrom_elements (id : Int) (els : List Element) (i : Int) :
    findIndexFrom (idIs id) (els.map Element.toJS) i =
      .ok (if indexOfId id els < els.length then i + (indexOfId id els : Int) else -1) := by
  induction els generalizing i with
  | nil => simp [findIndexFrom, indexOfId]
  | cons e es ih =>
    simp only [List.map_cons, findIndexFrom, idIs_toJS, indexOfId]
    by_cases h : e.id = id
    · simp [h]
    · simp only [h, decide_False, ih, ↓reduceIte, List.length_cons, add_lt_add_iff_right]
      split
      · congr 1; push_cast; ring
      · rfl

theorem getElem_indexOfId (id : Int) (els : List Element) (h : indexOfId id els < els.length) :
    (els[indexOfId id els]).id = id := by
  induction els with
  | nil => simp at h
  | cons e es ih =>
    simp only [indexOfId] at h ⊢
    split
    · next h1 => simpa using h1
    · next h1 =>
      simp only [h1, ↓reduceIte, List.length_cons, add_lt_add_iff_right] at h
      simpa using ih h

theorem splice_remove_one (xs : List JSVal) (i : Nat) (h : i < xs.length) :
    splice xs (i : Int) 1 [] = ([xs[i]], xs.eraseIdx i) := by
  have hs : spliceStart xs.length (i : Int) = i := by
    have h0 : ¬ ((i : Int) < 0) := by omega
    simp only [spliceStart, h0, ↓reduceIte, Int.toNat_ofNat]; omega
  simp only [splice, hs]
  have h1 : min (Int.toNat 1) (xs.length - i) = 1 := by
    simp; omega
  rw [h1, List.eraseIdx_eq_take_drop_succ]
  simp [List.take_one_drop_eq_of_lt_length h]

theorem take_append_drop_eq_insertIdx (ys : List JSVal) (x : JSVal) (j : Nat) (h : j ≤ ys.length) :
    ys.take j ++ [x] ++ ys.drop j = ys.insertIdx j x := by
  induction ys generalizing j with
  | nil =>
    have : j = 0 := by simpa using h
    subst this; simp
  | cons y ys ih =>
    cases j with
    | zero => simp
    | succ j =>
      have := ih j (by simpa using h)
      simp [List.insertIdx_succ_cons] at this ⊢
      exact this

theorem splice_insert_one (ys : List JSVal) (x : JSVal) (j : Nat) (h : j ≤ ys.length) :
    splice ys (j : Int) 0 [x] = ([], ys.insertIdx j x) := by
  have hs : spliceStart ys.length (j : Int) = j := by
    have h0 : ¬ ((j : Int) < 0) := by omega
    simp only [spliceStart, h0, ↓reduceIte, Int.toNat_ofNat]; omega
  simp only [splice, hs]
  simp [take_append_drop_eq_insertIdx ys x j h]

end JS

namespace JS

theorem map_eraseIdx_toJS (els : List Element) (i : Nat) :
    (els.map Element.toJS).eraseIdx i = (els.eraseIdx i).map Element.toJS := by
  induction els generalizing i with
  | nil => simp
  | cons e es ih =>
    cases i with
    | zero => simp
    | succ i => simp [ih]

theorem map_insertIdx_toJS (els : List Element) (e : Element) (j : Nat) :
    (els.map Element.toJS).insertIdx j e.toJS = (els.insertIdx j e).map Element.toJS := by
  induction els generalizing j with
  | nil =>
    cases j with
    | zero => simp
    | succ j => simp
  | cons x xs ih =>
    cases j with
    | zero => simp
    | succ j => simp [List.insertIdx_succ_cons, ih]

end JS

namespace DragDropBuilder

theorem handleElementDrop_found (els : List Element) (sourceId targetId n : Int)
    (storage : Option String) (hne : sourceId ≠ targetId) (h0 : sourceId ≠ 0)
    (hs : indexOfId sourceId els < els.length) (ht : indexOfId targetId els < els.length) :
    handleElementDrop targetId
        { elements := ofElements els, draggedItem := some (.element sourceId), nextId := n,
          storage := storage } =
      { state :=
          { elements := ofElements
              ((els.eraseIdx (indexOfId sourceId els)).insertIdx (indexOfId targetId els)
                els[indexOfId sourceId els]),
            draggedItem := none, nextId := n, storage := storage },
        thrown := none } := by
  have hs1 : indexOfId sourceId els < (els.map Element.toJS).length := by simpa using hs
  have hlen : indexOfId targetId els ≤
      ((els.eraseIdx (indexOfId sourceId els)).map Element.toJS).length := by
    rw [List.length_map, List.length_eraseIdx_of_lt hs]
    omega
  simp only [handleElementDrop, DraggedItem.idFalsy, h0, hne, decide_False, Bool.false_eq_true,
    ↓reduceIte, ofElements, findIndex, findIndexFrom_elements, hs, ht, zero_add, spread,
    splice_remove_one _ _ hs1, List.headD_cons, List.getElem_map, map_eraseIdx_toJS,
    splice_insert_one _ _ _ hlen, map_insertIdx_toJS]

end DragDropBuilder

namespace JS

theorem entryId_toJS (e : Element) : entryId e.toJS = some e.id := by
  simp [entryId, Element.toJS, lookupProp]

theorem filterFrom_sublist (p : JSVal → Except JSError Bool) (xs ys : List JSVal)
    (h : filterFrom p xs = .ok ys) : ys.Sublist xs := by
  induction xs generalizing ys with
  | nil =>
    simp [filterFrom] at h
    subst h
    exact List.Sublist.refl _
  | cons x xs ih =>
    simp only [filterFrom] at h
    cases hp : p x with
    | error e => simp [hp] at h
    | ok b =>
      cases hf : filterFrom p xs with
      | error e => simp [hp, hf] at h
      | ok zs =>
        simp only [hp, hf, Except.ok.injEq] at h
        have := ih zs hf
        cases b
        · simp at h
          subst h
          exact List.Sublist.cons _ this
        · simp at h
          subst h
          exact List.Sublist.cons₂ _ this

theorem editOne_slot (id : Int) (c : String) (x y : JSVal) (hx : IsSlot x)
    (h : DragDropBuilder.editOne id c x = .ok y) : IsSlot y ∧ entryId y = entryId x := by
  rcases hx with hx | ⟨e, hx⟩
  · subst hx
    simp [DragDropBuilder.editOne, idIs] at h
  · subst hx
    simp only [DragDropBuilder.editOne, idIs_toJS] at h
    by_cases he : e.id = id
    · simp only [he, decide_True] at h
      simp [Element.toJS, setProp] at h
      subst h
      refine ⟨Or.inr ⟨{ e with content := c }, ?_⟩, ?_⟩
      · simp [Element.toJS, he]
      · simp [entryId, lookupProp, Element.toJS, he]
    · simp only [he, decide_False] at h
      cases h
      exact ⟨Or.inr ⟨e, rfl⟩, rfl⟩

theorem mapFrom_editOne (id : Int) (c : String) (xs ys : List JSVal)
    (hx : ∀ x ∈ xs, IsSlot x) (h : mapFrom (DragDropBuilder.editOne id c) xs = .ok ys) :
    (∀ y ∈ ys, IsSlot y) ∧ ys.filterMap entryId = xs.filterMap entryId := by
  induction xs generalizing ys with
  | nil =>
    simp [mapFrom] at h
    subst h
    simp
  | cons x xs ih =>
    simp only [mapFrom] at h
    cases hy : DragDropBuilder.editOne id c x with
    | error e => simp [hy] at h
    | ok y =>
      cases hz : mapFrom (DragDropBuilder.editOne id c) xs with
      | error e => simp [hy, hz] at h
      | ok zs =>
        simp only [hy, hz, Except.ok.injEq] at h
        subst h
        have h1 := editOne_slot id c x y (hx x (by simp)) hy
        have h2 := ih zs (fun a ha => hx a (by simp [ha])) hz
        refine ⟨?_, ?_⟩
        · intro a ha
          rcases List.mem_cons.1 ha with ha | ha
          · subst ha; exact h1.1
          · exact h2.1 a ha
        · simp [List.filterMap_cons, h1.2, h2.2]

theorem splice_move_perm (xs : List JSVal) (s t : Int) :
    let r1 := splice xs s 1 []
    let r2 := splice r1.2 t 0 [r1.1.headD .undefined]
    r2.2.Perm xs ∨ r2.2.Perm (.undefined :: xs) := by
  intro r1 r2
  have h2 : r2.2.Perm (r1.1.headD .undefined :: r1.2) := by
    simp only [r2, splice]
    generalize spliceStart r1.2.length t = b
    have hdc : min (Int.toNat 0) (r1.2.length - b) = 0 := by simp
    rw [hdc, Nat.add_zero]
    calc (List.take b r1.2 ++ [r1.1.headD .undefined] ++ List.drop b r1.2).Perm
          ([r1.1.headD .undefined] ++ (List.take b r1.2 ++ List.drop b r1.2)) := by
            rw [List.append_assoc]
            exact List.perm_append_comm_assoc _ _ _
      _ = r1.1.headD .undefined :: r1.2 := by simp
  simp only [r1, splice] at h2 ⊢
  generalize spliceStart xs.length s = a at h2 ⊢
  have hdc : min (Int.toNat 1) (xs.length - a) = 0 ∨ min (Int.toNat 1) (xs.length - a) = 1 := by
    have : Int.toNat 1 = 1 := rfl
    rw [this]; omega
  rcases hdc with hdc | hdc
  · right
    rw [hdc] at h2
    simpa using h2
  · left
    have ha : a < xs.length := by
      have : Int.toNat 1 = 1 := rfl
      rw [this] at hdc; omega
    rw [hdc] at h2
    refine h2.trans ?_
    rw [List.take_one_drop_eq_of_lt_length ha]
    simp only [List.headD_cons, List.append_nil]
    have : (xs[a] :: (List.take a xs ++ List.drop (a + 1) xs)).Perm
        (List.take a xs ++ xs[a] :: List.drop (a + 1) xs) := List.perm_middle.symm
    refine this.trans ?_
    rw [← List.drop_eq_getElem_cons ha, List.take_append_drop]

end JS

namespace JSON

theorem digitChar_toNat (d : Nat) (h : d < 10) : (digitChar d).toNat = 48 + d := by
  interval_cases d <;> rfl

theorem isDigit_digitChar (d : Nat) (h : d < 10) : isDigit (digitChar d) = true := by
  interval_cases d <;> rfl

theorem digitChar_ne_zero (d : Nat) (h : d < 10) (h1 : 0 < d) : digitChar d ≠ '0' := by
  interval_cases d <;> decide

theorem digitChar_ne_minus (d : Nat) (h : d < 10) : digitChar d ≠ '-' := by
  interval_cases d <;> decide

theorem digitsVal_nil (acc : Nat) : digitsVal acc [] = acc := rfl

theorem digitsVal_cons (acc : Nat) (c : Char) (cs : List Char) :
    digitsVal acc (c :: cs) = digitsVal (10 * acc + (c.toNat - 48)) cs := rfl

theorem digitsVal_append_singleton (acc : Nat) (xs : List Char) (c : Char) :
    digitsVal acc (xs ++ [c]) = 10 * digitsVal acc xs + (c.toNat - 48) := by
  induction xs generalizing acc with
  | nil => rw [List.nil_append, digitsVal_cons, digitsVal_nil, digitsVal_nil]
  | cons x xs ih => rw [List.cons_append, digitsVal_cons, digitsVal_cons, ih]

theorem digitsVal_natDigits (fuel n : Nat) (h : n < fuel) : digitsVal 0 (natDigits fuel n) = n := by
  induction fuel generalizing n with
  | zero => omega
  | succ f ih =>
    simp only [natDigits]
    split
    · next h1 =>
      rw [digitsVal_cons, digitsVal_nil, digitChar_toNat n h1]
      omega
    · next h1 =>
      rw [digitsVal_append_singleton, ih (n / 10) (by omega),
        digitChar_toNat (n % 10) (Nat.mod_lt _ (by decide))]
      omega

theorem all_isDigit_natDigits (fuel n : Nat) : ∀ c ∈ natDigits fuel n, isDigit c = true := by
  induction fuel generalizing n with
  | zero => simp [natDigits]
  | succ f ih =>
    simp only [natDigits]
    split
    · next h1 =>
      intro c hc
      simp at hc
      subst hc
      exact isDigit_digitChar n h1
    · intro c hc
      rcases List.mem_append.1 hc with hc | hc
      · exact ih _ c hc
      · simp at hc
        subst hc
        exact isDigit_digitChar _ (Nat.mod_lt _ (by decide))

theorem natDigits_head (fuel n : Nat) (h : n < fuel) (h1 : 0 < n) :
    ∃ c r, natDigits fuel n = c :: r ∧ c ≠ '0' ∧ isDigit c = true := by
  induction fuel generalizing n with
  | zero => omega
  | succ f ih =>
    simp only [natDigits]
    split
    · next h2 => exact ⟨_, [], rfl, digitChar_ne_zero n h2 h1, isDigit_digitChar n h2⟩
    · next h2 =>
      obtain ⟨c, r, hr, hc⟩ := ih (n / 10) (by omega) (by omega)
      exact ⟨c, r ++ [digitChar (n % 10)], by simp [hr], hc⟩

theorem spanDigits_append (ds rest : List Char) (h : ∀ c ∈ ds, isDigit c = true)
    (hr : ∀ c r, rest = c :: r → isDigit c = false) : spanDigits (ds ++ rest) = (ds, rest) := by
  induction ds with
  | nil =>
    cases rest with
    | nil => rfl
    | cons c r => simp [spanDigits, hr c r rfl]
  | cons d ds ih =>
    have hd : isDigit d = true := h d (by simp)
    have := ih (fun c hc => h c (by simp [hc]))
    simp [spanDigits, hd, this]

theorem parseIntPart_natToString (n : Nat) (rest : List Char)
    (hr : ∀ c r, rest = c :: r → isDigit c = false) :
    parseIntPart (natToString n ++ rest) = some (natToString n, rest) := by
  rcases Nat.eq_zero_or_pos n with h0 | h0
  · subst h0
    rfl
  · obtain ⟨c, r, hcr, hc0, hcd⟩ := natDigits_head (n + 1) n (by omega) h0
    have hsp := spanDigits_append (natToString n) rest (all_isDigit_natDigits _ _) hr
    unfold natToString at hsp ⊢
    rw [hcr] at hsp ⊢
    simp only [List.cons_append, parseIntPart, hc0, ↓reduceIte, hcd]
    simpa using hsp

theorem parseUnsigned_natToString (neg : Bool) (n : Nat) (rest : List Char) :
    parseUnsigned neg (natToString n ++ ',' :: rest) =
      some (.num (if neg then -(n : Int) else (n : Int)), ',' :: rest) := by
  have hr : ∀ c r, (',' :: rest) = c :: r → isDigit c = false := by
    intro c r h
    simp at h
    rw [← h.1]
    rfl
  simp only [parseUnsigned, parseIntPart_natToString n _ hr]
  have h1 : parseFracPart (',' :: rest) = some ([], ',' :: rest) := by
    simp [parseFracPart]
  have h2 : parseExpPart (',' :: rest) = some (0, ',' :: rest) := by
    simp [parseExpPart]
  simp only [h1, h2]
  have h3 : digitsVal 0 (natToString n) = n := digitsVal_natDigits (n + 1) n (by omega)
  simp [mkNumber, h3]

theorem parseNumber_intToString (n : Int) (rest : List Char) :
    parseNumber (intToString n ++ ',' :: rest) = some (.num n, ',' :: rest) := by
  unfold intToString
  split
  · next h =>
    simp only [List.cons_append, parseNumber, ↓reduceIte, parseUnsigned_natToString]
    have : -((-n).toNat : Int) = n := by omega
    rw [this]
  · next h =>
    have hn : ((n.toNat : Nat) : Int) = n := by omega
    rcases Nat.eq_zero_or_pos n.toNat with h0 | h0
    · rw [h0]
      have : n = 0 := by omega
      subst this
      rfl
    · obtain ⟨c, r, hcr, hc0, hcd⟩ := natDigits_head (n.toNat + 1) n.toNat (by omega) h0
      have hne : c ≠ '-' := by
        intro hc
        subst hc
        simp [isDigit] at hcd
      have key := parseUnsigned_natToString false n.toNat rest
      unfold natToString at key ⊢
      rw [hcr] at key ⊢
      simp only [List.cons_append, parseNumber, hne, ↓reduceIte]
      simp only [List.cons_append] at key
      rw [key]
      simp [hn]

end JSON

namespace JSON

theorem hexVal_hexDigit (d : Nat) (h : d < 16) : hexVal (hexDigit d) = some d := by
  interval_cases d <;> rfl

theorem parseHex4_hex4 (n : Nat) (h : n < 65536) (rest : List Char) :
    parseHex4 (hex4 n ++ rest) = some (n, rest) := by
  have h3 : n / 4096 % 16 < 16 := Nat.mod_lt _ (by decide)
  have h2 : n / 256 % 16 < 16 := Nat.mod_lt _ (by decide)
  have h1 : n / 16 % 16 < 16 := Nat.mod_lt _ (by decide)
  have h0 : n % 16 < 16 := Nat.mod_lt _ (by decide)
  simp only [hex4, List.cons_append, List.nil_append, parseHex4, hexVal_hexDigit _ h3,
    hexVal_hexDigit _ h2, hexVal_hexDigit _ h1, hexVal_hexDigit _ h0]
  congr 2
  omega

theorem parseString_quoteChar (c : Char) (fuel : Nat) (rest : List Char) :
    parseString (fuel + 1) none (quoteChar c ++ rest) =
      (parseString fuel none rest).map fun r => (c :: r.1, r.2) := by
  unfold quoteChar
  split
  · next h => subst h; simp [parseString, unescape, flush]
  split
  · next h => subst h; simp [parseString, unescape, flush]
  split
  · next h => subst h; simp [parseString, unescape, flush]
  split
  · next h => subst h; simp [parseString, unescape, flush]
  split
  · next h => subst h; simp [parseString, unescape, flush]
  split
  · next h => subst h; simp [parseString, unescape, flush]
  split
  · next h => subst h; simp [parseString, unescape, flush]
  split
  · next h1 h2 h3 h4 h5 h6 h7 h =>
    have hlt : c.toNat < 65536 := by omega
    have hs1 : ¬ (0xD800 ≤ c.toNat ∧ c.toNat < 0xDC00) := by omega
    have hs2 : ¬ (0xDC00 ≤ c.toNat ∧ c.toNat < 0xE000) := by omega
    show parseString (fuel + 1) none ('\x5c' :: 'u' :: (hex4 c.toNat ++ rest)) = _
    simp only [parseString, flush, List.nil_append, ↓reduceIte, Char.reduceEq]
    rw [parseHex4_hex4 _ hlt]
    simp only [hs1, hs2, ↓reduceIte, Char.ofNat_toNat]
  · next h1 h2 h3 h4 h5 h6 h7 h =>
    simp [parseString, h6, h7, h, flush]

theorem quoteChar_length_pos (c : Char) : 0 < (quoteChar c).length := by
  unfold quoteChar
  repeat' split
  all_goals simp [hex4]

theorem parseString_quoteBody (s : List Char) (fuel : Nat) (rest : List Char)
    (h : (quoteBody s).length + 1 ≤ fuel) :
    parseString fuel none (quoteBody s ++ '\x22' :: rest) = some (s, rest) := by
  induction s generalizing fuel with
  | nil =>
    cases fuel with
    | zero => omega
    | succ f => simp [quoteBody, parseString, flush]
  | cons c s ih =>
    cases fuel with
    | zero => omega
    | succ f =>
      have hpos := quoteChar_length_pos c
      have hlen : (quoteBody s).length + 1 ≤ f := by
        simp only [quoteBody, List.length_append] at h
        omega
      simp only [quoteBody, List.append_assoc, parseString_quoteChar, ih f hlen, Option.map_some']

end JSON

namespace JSON

theorem parseValue_quote (f : Nat) (s : String) (rest : List Char) :
    parseValue (f + 1) (quote s ++ rest) = some (.str s, rest) := by
  have h := parseString_quoteBody s.data (quoteBody s.data ++ '\x22' :: rest).length rest
    (by simp)
  simp only [quote, List.cons_append, List.append_assoc, List.singleton_append, List.nil_append]
  simp only [parseValue, Char.reduceEq, ↓reduceIte, h, Option.map_some']

theorem parseMembers_comma (f : Nat) (acc : List (String × JSVal)) (k : String) (v : JSVal)
    (vtext rest : List Char) (hws : skipWs (vtext ++ ',' :: rest) = vtext ++ ',' :: rest)
    (hv : parseValue f (vtext ++ ',' :: rest) = some (v, ',' :: rest)) :
    parseMembers (f + 1) acc (quote k ++ ':' :: (vtext ++ ',' :: rest)) =
      parseMembers f (defineProp k v acc) (skipWs rest) := by
  have h := parseString_quoteBody k.data
    (quoteBody k.data ++ '\x22' :: ':' :: (vtext ++ ',' :: rest)).length
    (':' :: (vtext ++ ',' :: rest)) (by simp)
  simp only [quote, List.cons_append, List.append_assoc, List.singleton_append, List.nil_append]
  simp only [parseMembers, ↓reduceIte, h]
  simp only [skipWs, isWs, Char.reduceEq, decide_False, Bool.or_self, Bool.false_eq_true,
    ↓reduceIte, hws, hv]

theorem parseMembers_close (f : Nat) (acc : List (String × JSVal)) (k : String) (v : JSVal)
    (vtext rest : List Char) (hws : skipWs (vtext ++ '\x7d' :: rest) = vtext ++ '\x7d' :: rest)
    (hv : parseValue f (vtext ++ '\x7d' :: rest) = some (v, '\x7d' :: rest)) :
    parseMembers (f + 1) acc (quote k ++ ':' :: (vtext ++ '\x7d' :: rest)) =
      some (defineProp k v acc, rest) := by
  have h := parseString_quoteBody k.data
    (quoteBody k.data ++ '\x22' :: ':' :: (vtext ++ '\x7d' :: rest)).length
    (':' :: (vtext ++ '\x7d' :: rest)) (by simp)
  simp only [quote, List.cons_append, List.append_assoc, List.singleton_append, List.nil_append]
  simp only [parseMembers, ↓reduceIte, h]
  simp only [skipWs, isWs, Char.reduceEq, decide_False, Bool.or_self, Bool.false_eq_true,
    ↓reduceIte, hws, hv]


theorem serialize_toJS (e : Element) : serialize e.toJS = some (recordText e) := by
  simp [Element.toJS, serialize, serializeProps, joinComma, recordText]

theorem serializeElems_map_toJS (els : List Element) :
    serializeElems (els.map Element.toJS) = els.map recordText := by
  induction els with
  | nil => simp [serializeElems]
  | cons e es ih => simp [serializeElems, serialize_toJS, ih]

theorem skipWs_cons (c : Char) (cs : List Char) (h : isWs c = false) :
    skipWs (c :: cs) = c :: cs := by
  simp [skipWs, h]

theorem quote_append (s : String) (rest : List Char) :
    quote s ++ rest = '\x22' :: (quoteBody s.data ++ '\x22' :: rest) := by
  simp [quote]

theorem skipWs_quote (s : String) (rest : List Char) : skipWs (quote s ++ rest) = quote s ++ rest :=
  skipWs_cons _ _ (by decide)

theorem intToString_head (n : Int) :
    ∃ c r, intToString n = c :: r ∧ (c = '-' ∨ isDigit c = true) := by
  unfold intToString
  split
  · exact ⟨_, _, rfl, Or.inl rfl⟩
  · rcases Nat.eq_zero_or_pos n.toNat with h0 | h0
    · rw [h0]
      exact ⟨'0', [], rfl, Or.inr rfl⟩
    · obtain ⟨c, r, hcr, _, hcd⟩ := natDigits_head (n.toNat + 1) n.toNat (by omega) h0
      exact ⟨c, r, hcr, Or.inr hcd⟩

theorem skipWs_intToString (n : Int) (rest : List Char) :
    skipWs (intToString n ++ rest) = intToString n ++ rest := by
  obtain ⟨c, r, hcr, hc⟩ := intToString_head n
  rw [hcr]
  refine skipWs_cons _ _ ?_
  rcases hc with hc | hc
  · subst hc; rfl
  · simp only [isDigit, Bool.and_eq_true, decide_eq_true_eq] at hc
    have h1 : c ≠ ' ' := by rintro rfl; simp at hc
    have h2 : c ≠ '\x09' := by rintro rfl; simp at hc
    have h3 : c ≠ '\x0a' := by rintro rfl; simp at hc
    have h4 : c ≠ '\x0d' := by rintro rfl; simp at hc
    simp [isWs, h1, h2, h3, h4]

theorem parseValue_intToString (f : Nat) (n : Int) (rest : List Char) :
    parseValue (f + 1) (intToString n ++ ',' :: rest) = some (.num n, ',' :: rest) := by
  have key := parseNumber_intToString n rest
  obtain ⟨c, r, hcr, hc⟩ := intToString_head n
  rw [hcr] at key ⊢
  have hne : c ≠ 'n' ∧ c ≠ 't' ∧ c ≠ 'f' ∧ c ≠ '\x22' ∧ c ≠ '[' ∧ c ≠ '\x7b' := by
    rcases hc with hc | hc
    · subst hc; decide
    · simp only [isDigit, Bool.and_eq_true, decide_eq_true_eq] at hc
      refine ⟨?_, ?_, ?_, ?_, ?_, ?_⟩ <;> (rintro rfl; simp at hc)
  obtain ⟨a1, a2, a3, a4, a5, a6⟩ := hne
  simp only [List.cons_append, parseValue, a1, a2, a3, a4, a5, a6, ↓reduceIte]
  exact key

theorem parseValue_recordText (f : Nat) (e : Element) (rest : List Char) :
    parseValue (f + 5) (recordText e ++ rest) = some (e.toJS, rest) := by
  have m1 := parseMembers_comma (f + 3) [] "id" (.num e.id) (intToString e.id)
    (quote "type" ++ ':' :: (quote e.type ++ ',' ::
      (quote "content" ++ ':' :: (quote e.content ++ '\x7d' :: rest))))
    (skipWs_intToString _ _) (parseValue_intToString _ _ _)
  have m2 := parseMembers_comma (f + 2) (defineProp "id" (.num e.id) []) "type" (.str e.type)
    (quote e.type) (quote "content" ++ ':' :: (quote e.content ++ '\x7d' :: rest))
    (skipWs_quote _ _) (parseValue_quote _ _ _)
  have m3 := parseMembers_close (f + 1)
    (defineProp "type" (.str e.type) (defineProp "id" (.num e.id) [])) "content"
    (.str e.content) (quote e.content) rest (skipWs_quote _ _) (parseValue_quote _ _ _)
  rw [skipWs_quote] at m1 m2
  have hd : defineProp "content" (.str e.content)
      (defineProp "type" (.str e.type) (defineProp "id" (.num e.id) [])) =
      [("id", .num e.id), ("type", .str e.type), ("content", .str e.content)] := by
    have a1 : arrayIndex "id" = none := by decide
    have a2 : arrayIndex "type" = none := by decide
    have a3 : arrayIndex "content" = none := by decide
    simp [defineProp, a1, a2, a3, setProp]
  simp only [recordText, List.cons_append, List.append_assoc, List.nil_append]
  rw [parseValue]
  simp only [Char.reduceEq, ↓reduceIte, skipWs_quote]
  rw [quote_append]
  simp only [Char.reduceEq, ↓reduceIte]
  rw [← quote_append, m1, m2, m3, hd]
  rfl

end JSON

namespace JSON

theorem recordText_head (e : Element) : ∃ r, recordText e = '\x7b' :: r := ⟨_, rfl⟩

theorem joinComma_cons_cons (t u : List Char) (ts : List (List Char)) :
    joinComma (t :: u :: ts) = t ++ ',' :: joinComma (u :: ts) := rfl

theorem joinComma_records_head (e : Element) (es : List Element) :
    ∃ r, joinComma ((e :: es).map recordText) = '\x7b' :: r := by
  cases es with
  | nil => exact ⟨_, rfl⟩
  | cons e2 es => exact ⟨_, rfl⟩

theorem length_le_joinComma_records (els : List Element) :
    els.length ≤ (joinComma (els.map recordText)).length := by
  induction els with
  | nil => simp
  | cons e es ih =>
    cases es with
    | nil => simp [joinComma, recordText]
    | cons e2 es =>
      rw [List.map_cons, List.map_cons, joinComma_cons_cons, ← List.map_cons]
      simp only [List.length_append, List.length_cons] at ih ⊢
      omega

theorem parseElems_records (f : Nat) (e : Element) (es : List Element) (rest : List Char) :
    parseElems (f + es.length + 6) (joinComma ((e :: es).map recordText) ++ ']' :: rest) =
      some ((e :: es).map Element.toJS, rest) := by
  induction es generalizing e with
  | nil =>
    have hv := parseValue_recordText f e (']' :: rest)
    simp only [List.map_cons, List.map_nil, joinComma, List.length_nil, Nat.add_zero]
    rw [parseElems, hv]
    simp [skipWs, isWs]
  | cons e2 es ih =>
    have hv := parseValue_recordText (f + es.length + 1) e
      (',' :: (joinComma ((e2 :: es).map recordText) ++ ']' :: rest))
    obtain ⟨r, hr⟩ := joinComma_records_head e2 es
    have hsk : skipWs (joinComma ((e2 :: es).map recordText) ++ ']' :: rest) =
        joinComma ((e2 :: es).map recordText) ++ ']' :: rest := by
      rw [hr]
      exact skipWs_cons _ _ (by decide)
    have hf : f + (e2 :: es).length + 6 = (f + es.length + 1 + 5) + 1 := by
      simp only [List.length_cons]; omega
    have hf2 : f + es.length + 1 + 5 = f + es.length + 6 := by omega
    rw [List.map_cons, List.map_cons, joinComma_cons_cons, ← List.map_cons, hf, parseElems,
      List.append_assoc, List.cons_append, hv]
    simp only [skipWs, isWs, Char.reduceEq, decide_False, Bool.or_self, Bool.false_eq_true,
      ↓reduceIte]
    rw [hsk, hf2, ih e2]
    rfl

theorem parseValue_records (fuel : Nat) (els : List Element) (rest : List Char)
    (h : els.length + 6 ≤ fuel) :
    parseValue fuel ('[' :: (joinComma (els.map recordText) ++ ']' :: rest)) =
      some (ofElements els, rest) := by
  cases els with
  | nil =>
    obtain ⟨f, rfl⟩ : ∃ f, fuel = f + 1 := ⟨fuel - 1, by omega⟩
    simp [parseValue, joinComma, skipWs, isWs, ofElements]
  | cons e es =>
    obtain ⟨f, rfl⟩ : ∃ f, fuel = (f + es.length + 6) + 1 := ⟨fuel - (es.length + 7), by
      simp only [List.length_cons] at h; omega⟩
    obtain ⟨r, hr⟩ := joinComma_records_head e es
    have hp := parseElems_records f e es rest
    rw [parseValue]
    simp only [Char.reduceEq, ↓reduceIte]
    rw [hr] at hp ⊢
    simp only [List.cons_append, skipWs, isWs, Char.reduceEq, decide_False, Bool.or_self,
      Bool.false_eq_true, ↓reduceIte, List.append_eq] at hp ⊢
    rw [hp]
    rfl

theorem serialize_ofElements (els : List Element) :
    serialize (ofElements els) = some ('[' :: (joinComma (els.map recordText) ++ [']'])) := by
  simp [ofElements, serialize, serializeElems_map_toJS]

theorem stringify_ofElements (els : List Element) :
    stringify (ofElements els) =
      some (String.mk ('[' :: (joinComma (els.map recordText) ++ [']']))) := by
  simp [stringify, serialize_ofElements]

/-- The round trip of the JSON layer: parsing the text that `JSON.stringify`
writes for a collection of elements gives the collection back. -/
theorem parse_stringify_ofElements (els : List Element) :
    parse (String.mk ('[' :: (joinComma (els.map recordText) ++ [']']))) =
      .ok (ofElements els) := by
  have hlen := length_le_joinComma_records els
  have hp := parseValue_records
    (2 * (String.mk ('[' :: (joinComma (els.map recordText) ++ [']']))).length + 2) els []
    (by simp only [String.length, List.length_cons, List.length_append, List.length_nil]; omega)
  unfold parse
  have hsk : skipWs ('[' :: (joinComma (els.map recordText) ++ [']'])) =
      '[' :: (joinComma (els.map recordText) ++ [']']) := skipWs_cons _ _ (by decide)
  simp only [hsk, hp]
  simp [skipWs]

end JSON

namespace JSON

theorem skipWs_length_le (cs : List Char) : (skipWs cs).length ≤ cs.length := by
  induction cs with
  | nil => simp [skipWs]
  | cons c cs ih =>
    simp only [skipWs]
    split
    · simp only [List.length_cons]; omega
    · exact Nat.le_refl _

theorem expect_length_le (l cs r : List Char) (h : expect l cs = some r) :
    r.length ≤ cs.length := by
  induction l generalizing cs with
  | nil =>
    simp only [expect, Option.some.injEq] at h
    subst h
    exact Nat.le_refl _
  | cons a l ih =>
    cases cs with
    | nil => simp [expect] at h
    | cons c cs =>
      simp only [expect] at h
      split at h
      · have := ih cs h
        simp only [List.length_cons]; omega
      · cases h

theorem parseHex4_length (cs r : List Char) (u : Nat) (h : parseHex4 cs = some (u, r)) :
    r.length < cs.length := by
  match cs, h with
  | a :: b :: c :: d :: rest, h =>
    simp only [parseHex4] at h
    split at h
    · simp only [Option.some.injEq, Prod.mk.injEq] at h
      rw [← h.2]
      simp only [List.length_cons]
      omega
    · cases h

theorem map_snd_eq_some (o : Option (List Char × List Char))
    (g : List Char × List Char → List Char × List Char) (s r : List Char)
    (h : o.map g = some (s, r)) (hg : ∀ x, (g x).2 = x.2) : ∃ t, o = some (t, r) := by
  cases o with
  | none => simp at h
  | some x =>
    simp only [Option.map_some', Option.some.injEq] at h
    have h2 := hg x
    rw [h] at h2
    have h3 : r = x.2 := h2
    exact ⟨x.1, by rw [h3]⟩

theorem parseString_length (fuel : Nat) (p : Option Nat) (cs s r : List Char)
    (h : parseString fuel p cs = some (s, r)) : r.length < cs.length := by
  induction fuel generalizing p cs s with
  | zero => simp [parseString] at h
  | succ f ih =>
    cases cs with
    | nil => simp [parseString] at h
    | cons c cs =>
      simp only [parseString] at h
      split at h
      · simp only [Option.some.injEq, Prod.mk.injEq] at h
        rw [← h.2]; simp
      split at h
      · split at h
        · cases h
        · next e cs1 =>
          split at h
          · split at h
            · cases h
            · next u cs2 hx =>
              have h4 := parseHex4_length _ _ _ hx
              have key : ∀ (q : Option Nat) (t : List Char),
                  parseString f q cs2 = some (t, r) → r.length < (c :: e :: cs1).length := by
                intro q t hq
                have := ih q cs2 t hq
                simp only [List.length_cons]
                omega
              split at h
              · obtain ⟨t, ht⟩ := map_snd_eq_some _ _ _ _ h (fun _ => rfl)
                exact key _ t ht
              · split at h
                · split at h
                  · obtain ⟨t, ht⟩ := map_snd_eq_some _ _ _ _ h (fun _ => rfl)
                    exact key _ t ht
                  · obtain ⟨t, ht⟩ := map_snd_eq_some _ _ _ _ h (fun _ => rfl)
                    exact key _ t ht
                · obtain ⟨t, ht⟩ := map_snd_eq_some _ _ _ _ h (fun _ => rfl)
                  exact key _ t ht
          · split at h
            · cases h
            · obtain ⟨t, ht⟩ := map_snd_eq_some _ _ _ _ h (fun _ => rfl)
              have := ih none cs1 t ht
              simp only [List.length_cons]; omega
      · split at h
        · cases h
        · obtain ⟨t, ht⟩ := map_snd_eq_some _ _ _ _ h (fun _ => rfl)
          have := ih none cs t ht
          simp only [List.length_cons]; omega

theorem spanDigits_length_le (cs : List Char) : (spanDigits cs).2.length ≤ cs.length := by
  induction cs with
  | nil => simp [spanDigits]
  | cons c cs ih =>
    simp only [spanDigits]
    split
    · simp only [List.length_cons]; omega
    · exact Nat.le_refl _

theorem parseIntPart_length (cs ds r : List Char) (h : parseIntPart cs = some (ds, r)) :
    r.length < cs.length := by
  cases cs with
  | nil => simp [parseIntPart] at h
  | cons c cs =>
    simp only [parseIntPart] at h
    split at h
    · simp only [Option.some.injEq, Prod.mk.injEq] at h
      rw [← h.2]; simp
    · split at h
      · next hd =>
        simp only [Option.some.injEq] at h
        have h2 : r = (spanDigits (c :: cs)).2 := by rw [h]
        have h3 := spanDigits_length_le cs
        simp only [spanDigits, hd, ↓reduceIte] at h2
        rw [h2]
        simp only [List.length_cons]; omega
      · cases h

theorem parseFracPart_length (cs fs r : List Char) (h : parseFracPart cs = some (fs, r)) :
    r.length ≤ cs.length := by
  cases cs with
  | nil =>
    simp only [parseFracPart, Option.some.injEq, Prod.mk.injEq] at h
    rw [← h.2]
  | cons c cs =>
    simp only [parseFracPart] at h
    split at h
    · split at h
      · cases h
      · simp only [Option.some.injEq] at h
        have h2 : r = (spanDigits cs).2 := by rw [h]
        have h3 := spanDigits_length_le cs
        rw [h2]
        simp only [List.length_cons]; omega
    · simp only [Option.some.injEq, Prod.mk.injEq] at h
      rw [← h.2]

theorem parseExpDigits_length (neg : Bool) (cs r : List Char) (e : Int)
    (h : parseExpDigits neg cs = some (e, r)) : r.length ≤ cs.length := by
  simp only [parseExpDigits] at h
  split at h
  · cases h
  · simp only [Option.some.injEq, Prod.mk.injEq] at h
    rw [← h.2]
    exact spanDigits_length_le cs

theorem parseExpPart_length (cs r : List Char) (e : Int) (h : parseExpPart cs = some (e, r)) :
    r.length ≤ cs.length := by
  cases cs with
  | nil =>
    simp only [parseExpPart, Option.some.injEq, Prod.mk.injEq] at h
    rw [← h.2]
  | cons c cs =>
    simp only [parseExpPart] at h
    split at h
    · split at h
      · cases h
      · next s t =>
        split at h
        · have := parseExpDigits_length _ _ _ _ h
          simp only [List.length_cons]; omega
        · split at h
          · have := parseExpDigits_length _ _ _ _ h
            simp only [List.length_cons]; omega
          · have := parseExpDigits_length _ _ _ _ h
            simp only [List.length_cons] at this ⊢; omega
    · simp only [Option.some.injEq, Prod.mk.injEq] at h
      rw [← h.2]

theorem parseUnsigned_length (neg : Bool) (cs r : List Char) (v : JSVal)
    (h : parseUnsigned neg cs = some (v, r)) : r.length < cs.length := by
  simp only [parseUnsigned] at h
  split at h
  · cases h
  · next ds cs2 h1 =>
    split at h
    · cases h
    · next fs cs3 h2 =>
      split at h
      · cases h
      · next e cs4 h3 =>
        simp only [Option.some.injEq, Prod.mk.injEq] at h
        have a1 := parseIntPart_length _ _ _ h1
        have a2 := parseFracPart_length _ _ _ h2
        have a3 := parseExpPart_length _ _ _ h3
        rw [← h.2]
        omega

theorem parseNumber_length (cs r : List Char) (v : JSVal) (h : parseNumber cs = some (v, r)) :
    r.length < cs.length := by
  cases cs with
  | nil => simp [parseNumber] at h
  | cons c cs =>
    simp only [parseNumber] at h
    split at h
    · have := parseUnsigned_length _ _ _ _ h
      simp only [List.length_cons]; omega
    · exact parseUnsigned_length _ _ _ _ h

theorem map_fst_eq_some {α β : Type} (o : Option (α × List Char)) (g : α × List Char → β × List Char)
    (v : β) (r : List Char) (h : o.map g = some (v, r)) (hg : ∀ x, (g x).2 = x.2) :
    ∃ t, o = some (t, r) := by
  cases o with
  | none => simp at h
  | some x =>
    simp only [Option.map_some', Option.some.injEq] at h
    have h2 := hg x
    rw [h] at h2
    have h3 : r = x.2 := h2
    exact ⟨x.1, by rw [h3]⟩

theorem map_rest_eq_some {β : Type} (o : Option (List Char)) (g : List Char → β × List Char)
    (v : β) (r : List Char) (h : o.map g = some (v, r)) (hg : ∀ x, (g x).2 = x) :
    o = some r := by
  cases o with
  | none => simp at h
  | some x =>
    simp only [Option.map_some', Option.some.injEq] at h
    have h2 := hg x
    rw [h] at h2
    have h3 : r = x := h2
    rw [h3]

theorem parse_length (fuel : Nat) :
    (∀ cs v r, parseValue fuel cs = some (v, r) → r.length < cs.length) ∧
    (∀ cs vs r, parseElems fuel cs = some (vs, r) → r.length < cs.length) ∧
    (∀ acc cs fs r, parseMembers fuel acc cs = some (fs, r) → r.length < cs.length) := by
  induction fuel with
  | zero =>
    refine ⟨?_, ?_, ?_⟩
    · intro cs v r h; simp [parseValue] at h
    · intro cs vs r h; simp [parseElems] at h
    · intro acc cs fs r h; simp [parseMembers] at h
  | succ f ih =>
    obtain ⟨ihV, ihE, ihM⟩ := ih
    refine ⟨?_, ?_, ?_⟩
    · intro cs v r h
      cases cs with
      | nil => simp [parseValue] at h
      | cons c cs =>
        simp only [parseValue] at h
        split at h
        · have ht := map_rest_eq_some _ _ _ _ h (fun _ => rfl)
          have := expect_length_le _ _ _ ht
          simp only [List.length_cons]; omega
        split at h
        · have ht := map_rest_eq_some _ _ _ _ h (fun _ => rfl)
          have := expect_length_le _ _ _ ht
          simp only [List.length_cons]; omega
        split at h
        · have ht := map_rest_eq_some _ _ _ _ h (fun _ => rfl)
          have := expect_length_le _ _ _ ht
          simp only [List.length_cons]; omega
        split at h
        · obtain ⟨t, ht⟩ := map_fst_eq_some _ _ _ _ h (fun _ => rfl)
          have := parseString_length _ _ _ _ _ ht
          simp only [List.length_cons]; omega
        split at h
        · have hsk := skipWs_length_le cs
          split at h
          · cases h
          · next d ds hd =>
            rw [hd] at hsk
            simp only [List.length_cons] at hsk ⊢
            split at h
            · simp only [Option.some.injEq, Prod.mk.injEq] at h
              rw [← h.2]; omega
            · obtain ⟨t, ht⟩ := map_fst_eq_some _ _ _ _ h (fun _ => rfl)
              have := ihE _ _ _ ht
              simp only [List.length_cons] at this; omega
        split at h
        · have hsk := skipWs_length_le cs
          split at h
          · cases h
          · next d ds hd =>
            rw [hd] at hsk
            simp only [List.length_cons] at hsk ⊢
            split at h
            · simp only [Option.some.injEq, Prod.mk.injEq] at h
              rw [← h.2]; omega
            · obtain ⟨t, ht⟩ := map_fst_eq_some _ _ _ _ h (fun _ => rfl)
              have := ihM _ _ _ _ ht
              simp only [List.length_cons] at this; omega
        · exact parseNumber_length _ _ _ h
    · intro cs vs r h
      simp only [parseElems] at h
      split at h
      · cases h
      · next v rest hv =>
        have h1 := ihV _ _ _ hv
        have hsk := skipWs_length_le rest
        split at h
        · cases h
        · next d ds hd =>
          rw [hd] at hsk
          simp only [List.length_cons] at hsk
          split at h
          · obtain ⟨t, ht⟩ := map_fst_eq_some _ _ _ _ h (fun _ => rfl)
            have := ihE _ _ _ ht
            have := skipWs_length_le ds
            omega
          · split at h
            · simp only [Option.some.injEq, Prod.mk.injEq] at h
              rw [← h.2]; omega
            · cases h
    · intro acc cs fs r h
      cases cs with
      | nil => simp [parseMembers] at h
      | cons c cs =>
        simp only [parseMembers] at h
        split at h
        · split at h
          · cases h
          · next k rest hk =>
            have h1 := parseString_length _ _ _ _ _ hk
            have hsk := skipWs_length_le rest
            split at h
            · cases h
            · next d ds hd =>
              rw [hd] at hsk
              simp only [List.length_cons] at hsk ⊢
              split at h
              · split at h
                · cases h
                · next v rest1 hv =>
                  have h2 := ihV _ _ _ hv
                  have hsk0 := skipWs_length_le ds
                  have hsk1 := skipWs_length_le rest1
                  split at h
                  · cases h
                  · next d1 ds1 hd1 =>
                    rw [hd1] at hsk1
                    simp only [List.length_cons] at hsk1
                    split at h
                    · have := ihM _ _ _ _ h
                      have := skipWs_length_le ds1
                      omega
                    · split at h
                      · simp only [Option.some.injEq, Prod.mk.injEq] at h
                        rw [← h.2]; omega
                      · cases h
              · cases h
        · cases h

theorem parse_fuel_succ (fuel : Nat) :
    (∀ cs, 2 * cs.length + 1 ≤ fuel → parseValue (fuel + 1) cs = parseValue fuel cs) ∧
    (∀ cs, 2 * cs.length + 2 ≤ fuel → parseElems (fuel + 1) cs = parseElems fuel cs) ∧
    (∀ acc cs, 2 * cs.length + 2 ≤ fuel →
      parseMembers (fuel + 1) acc cs = parseMembers fuel acc cs) := by
  induction fuel with
  | zero =>
    refine ⟨?_, ?_, ?_⟩
    · intro cs h; omega
    · intro cs h; omega
    · intro acc cs h; omega
  | succ f ih =>
    obtain ⟨ihV, ihE, ihM⟩ := ih
    refine ⟨?_, ?_, ?_⟩
    · intro cs h
      cases cs with
      | nil => simp [parseValue]
      | cons c cs =>
        simp only [parseValue]
        have hsk := skipWs_length_le cs
        cases hd : skipWs cs with
        | nil => rfl
        | cons d ds =>
          rw [hd] at hsk
          simp only [List.length_cons] at hsk h
          have hb : 2 * (d :: ds).length + 2 ≤ f := by
            simp only [List.length_cons]; omega
          simp only [ihE _ hb, ihM _ _ hb]
    · intro cs h
      rw [parseElems]
      conv_rhs => rw [parseElems]
      rw [ihV cs (by omega)]
      cases hv : parseValue f cs with
      | none => rfl
      | some x =>
        obtain ⟨v, rest⟩ := x
        dsimp only
        have hlen := (parse_length f).1 _ _ _ hv
        have hsk := skipWs_length_le rest
        cases hd : skipWs rest with
        | nil => rfl
        | cons d ds =>
          rw [hd] at hsk
          simp only [List.length_cons] at hsk
          have hsk2 := skipWs_length_le ds
          dsimp only
          rw [ihE (skipWs ds) (by omega)]
    · intro acc cs h
      cases cs with
      | nil => simp [parseMembers]
      | cons c cs =>
        simp only [parseMembers]
        simp only [List.length_cons] at h
        cases hk : parseString cs.length none cs with
        | none => rfl
        | some x =>
          obtain ⟨k, rest⟩ := x
          dsimp only
          have hlen := parseString_length _ _ _ _ _ hk
          have hsk := skipWs_length_le rest
          cases hd : skipWs rest with
          | nil => rfl
          | cons d ds =>
            rw [hd] at hsk
            simp only [List.length_cons] at hsk
            have hsk2 := skipWs_length_le ds
            dsimp only
            rw [ihV (skipWs ds) (by omega)]
            cases hv : parseValue f (skipWs ds) with
            | none => rfl
            | some y =>
              obtain ⟨v, rest1⟩ := y
              dsimp only
              have hlen1 := (parse_length f).1 _ _ _ hv
              have hsk1 := skipWs_length_le rest1
              cases hd1 : skipWs rest1 with
              | nil => rfl
              | cons d1 ds1 =>
                rw [hd1] at hsk1
                simp only [List.length_cons] at hsk1
                have hsk3 := skipWs_length_le ds1
                dsimp only
                rw [ihM _ (skipWs ds1) (by omega)]

/-- Fuel never runs out: with any fuel from `2 * length + 1` on, `parseValue`
gives the result it gives with `2 * length + 1`. -/
theorem parseValue_fuel (cs : List Char) (fuel : Nat) (h : 2 * cs.length + 1 ≤ fuel) :
    parseValue fuel cs = parseValue (2 * cs.length + 1) cs := by
  induction fuel with
  | zero => omega
  | succ f ih =>
    rcases Nat.eq_or_lt_of_le h with h1 | h1
    · rw [h1]
    · rw [(parse_fuel_succ f).1 cs (by omega), ih (by omega)]

/-- The fuel that `parse` passes covers every text: more fuel gives the same
result. -/
theorem parse_fuel (text : String) (fuel : Nat) (h : 2 * text.length + 2 ≤ fuel) :
    parseValue fuel (skipWs text.data) =
      parseValue (2 * text.length + 2) (skipWs text.data) := by
  have hsk : (skipWs text.data).length ≤ text.length := skipWs_length_le text.data
  rw [parseValue_fuel _ fuel (by omega), parseValue_fuel _ (2 * text.length + 2) (by omega)]

end JSON
namespace DragDropBuilder

theorem inv_init (storage : Option String) : Inv (init storage) :=
  ⟨[], rfl, by simp, by simp, by simp⟩

theorem inv_of_perm (xs ys : List JSVal) (n : Int) (hp : ys.Perm xs)
    (hslot : ∀ x ∈ xs, IsSlot x) (hnd : (xs.filterMap entryId).Nodup)
    (hlt : ∀ k ∈ xs.filterMap entryId, k < n) :
    (∀ y ∈ ys, IsSlot y) ∧ (ys.filterMap entryId).Nodup ∧ ∀ k ∈ ys.filterMap entryId, k < n := by
  have hf : (ys.filterMap entryId).Perm (xs.filterMap entryId) := hp.filterMap _
  exact ⟨fun y hy => hslot y (hp.mem_iff.1 hy), hf.nodup_iff.2 hnd,
    fun k hk => hlt k (hf.mem_iff.1 hk)⟩

theorem inv_insertNew (st : State) (type : String) (h : Inv st) :
    Inv (handleCanvasDrop (handleSidebarDragStart type st)).state := by
  obtain ⟨xs, hxs, hslot, hnd, hlt⟩ := h
  refine ⟨xs ++ [(Element.mk st.nextId type ("New " ++ type)).toJS], ?_, ?_, ?_, ?_⟩
  · simp [handleCanvasDrop, handleSidebarDragStart, hxs, spread]
  · intro x hx
    rcases List.mem_append.1 hx with hx | hx
    · exact hslot x hx
    · simp at hx
      exact Or.inr ⟨_, hx⟩
  · rw [List.filterMap_append, List.nodup_append]
    refine ⟨hnd, by simp [entryId_toJS], ?_⟩
    intro a ha hb
    simp [entryId_toJS] at hb
    have := hlt a ha
    omega
  · intro k hk
    simp only [handleCanvasDrop, handleSidebarDragStart, hxs, spread]
    rw [List.filterMap_append] at hk
    rcases List.mem_append.1 hk with hk | hk
    · have := hlt k hk
      show k < st.nextId + 1
      omega
    · simp [entryId_toJS] at hk
      show k < st.nextId + 1
      omega

theorem inv_delete (st : State) (id : Int) (h : Inv st) : Inv (handleDelete id st).state := by
  obtain ⟨xs, hxs, hslot, hnd, hlt⟩ := h
  simp only [handleDelete, hxs]
  cases hf : filterFrom (fun el => (idIs id el).map not) xs with
  | error e => exact ⟨xs, hxs, hslot, hnd, hlt⟩
  | ok ys =>
    have hsub := filterFrom_sublist _ xs ys hf
    have hsub2 : (ys.filterMap entryId).Sublist (xs.filterMap entryId) := hsub.filterMap _
    exact ⟨ys, rfl, fun y hy => hslot y (hsub.subset hy), hnd.sublist hsub2,
      fun k hk => hlt k (hsub2.subset hk)⟩

theorem inv_edit (st : State) (id : Int) (c : String) (h : Inv st) :
    Inv (handleEdit id c st).state := by
  obtain ⟨xs, hxs, hslot, hnd, hlt⟩ := h
  simp only [handleEdit, hxs]
  cases hf : mapFrom (editOne id c) xs with
  | error e => exact ⟨xs, hxs, hslot, hnd, hlt⟩
  | ok ys =>
    have hm := mapFrom_editOne id c xs ys hslot hf
    refine ⟨ys, rfl, hm.1, ?_, ?_⟩
    · rw [hm.2]; exact hnd
    · intro k hk
      rw [hm.2] at hk
      exact hlt k hk

theorem inv_reorder (st : State) (sourceId targetId : Int) (h : Inv st) :
    Inv (handleElementDrop targetId (handleElementDragStart sourceId st)).state := by
  obtain ⟨xs, hxs, hslot, hnd, hlt⟩ := h
  have hsame : Inv (handleElementDragStart sourceId st) := ⟨xs, hxs, hslot, hnd, hlt⟩
  simp only [handleElementDrop, handleElementDragStart, DraggedItem.idFalsy] at hsame ⊢
  split
  · exact hsame
  · split
    · exact hsame
    · simp only [hxs, spread] at hsame ⊢
      cases h1 : findIndex (idIs sourceId) (.arr xs) with
      | error e => exact hsame
      | ok si =>
        cases h2 : findIndex (idIs targetId) (.arr xs) with
        | error e => exact hsame
        | ok ti =>
          have hund : ∀ x ∈ JSVal.undefined :: xs, IsSlot x := by
            intro x hx
            rcases List.mem_cons.1 hx with hx | hx
            · exact Or.inl hx
            · exact hslot x hx
          rcases splice_move_perm xs si ti with hp | hp
          · obtain ⟨a, b, c⟩ := inv_of_perm xs _ st.nextId hp hslot hnd hlt
            exact ⟨_, rfl, a, b, c⟩
          · obtain ⟨a, b, c⟩ := inv_of_perm (.undefined :: xs) _ st.nextId hp hund
              (by simpa [entryId] using hnd) (by simpa [entryId] using hlt)
            exact ⟨_, rfl, a, b, c⟩

theorem inv_applyOp (st : State) (op : Op) (h : Inv st) : Inv (applyOp st op) := by
  cases op with
  | insertNew type => exact inv_insertNew st type h
  | delete id => exact inv_delete st id h
  | reorder a b => exact inv_reorder st a b h
  | edit id c => exact inv_edit st id c h

theorem inv_run (ops : List Op) (st : State) (h : Inv st) : Inv (run st ops) := by
  induction ops generalizing st with
  | nil => exact h
  | cons op ops ih => exact ih _ (inv_applyOp st op h)

theorem slots_of_isSlot (xs : List JSVal) (h : ∀ x ∈ xs, IsSlot x) :
    ∃ slots : List (Option Element), xs = slots.map slotJS ∧
      xs.filterMap entryId = slots.reduceOption.map (fun e => e.id) := by
  induction xs with
  | nil => exact ⟨[], rfl, rfl⟩
  | cons x xs ih =>
    obtain ⟨slots, h1, h2⟩ := ih (fun a ha => h a (by simp [ha]))
    rcases h x (by simp) with hx | ⟨e, hx⟩
    · refine ⟨none :: slots, ?_, ?_⟩
      · simp [slotJS, hx, h1]
      · simp [hx, entryId, h2, List.reduceOption_cons_of_none]
    · refine ⟨some e :: slots, ?_, ?_⟩
      · simp [slotJS, hx, h1]
      · simp [hx, entryId_toJS, h2, List.reduceOption_cons_of_some]

/-- C2. From the empty store with the counter at 1, after every finite sequence
of insertNew, delete, reorder and edit operations with arbitrary arguments, the
collection is an array whose entries are element records (or `undefined`) and
the ids of those elements are pairwise distinct. -/
theorem ids_pairwise_distinct (storage : Option String) (ops : List Op) :
    ∃ slots : List (Option Element),
      (run (init storage) ops).elements = .arr (slots.map slotJS) ∧
      (slots.reduceOption.map (fun e => e.id)).Nodup := by
  obtain ⟨xs, hxs, hslot, hnd, _⟩ := inv_run ops (init storage) (inv_init storage)
  obtain ⟨slots, h1, h2⟩ := slots_of_isSlot xs hslot
  exact ⟨slots, by rw [hxs, h1], by rw [← h2]; exact hnd⟩

end DragDropBuilder

namespace JS

theorem spliceStart_le (len : Nat) (s : Int) : spliceStart len s ≤ len := by
  unfold spliceStart
  split <;> omega

theorem splice_remove_at (xs : List JSVal) (s : Int) (h : spliceStart xs.length s < xs.length) :
    splice xs s 1 [] =
      ([xs[spliceStart xs.length s]], xs.eraseIdx (spliceStart xs.length s)) := by
  simp only [splice]
  have h1 : min (Int.toNat 1) (xs.length - spliceStart xs.length s) = 1 := by
    have : Int.toNat 1 = 1 := rfl
    rw [this]; omega
  rw [h1, List.eraseIdx_eq_take_drop_succ]
  simp [List.take_one_drop_eq_of_lt_length h]

theorem splice_insert_at (ys : List JSVal) (s : Int) (x : JSVal) :
    splice ys s 0 [x] = ([], ys.insertIdx (spliceStart ys.length s) x) := by
  simp only [splice]
  simp [take_append_drop_eq_insertIdx ys x _ (spliceStart_le ys.length s)]

end JS

namespace DragDropBuilder

theorem findIndex_ofElements (id : Int) (els : List Element) :
    findIndex (idIs id) (ofElements els) = .ok (findIndexOfId id els) := by
  simp [findIndex, ofElements, findIndexFrom_elements, findIndexOfId]

theorem spliceStart_findIndexOfId (id : Int) (els : List Element) (h : els ≠ []) :
    spliceStart els.length (findIndexOfId id els) < els.length := by
  have hl : 0 < els.length := List.length_pos.2 h
  unfold findIndexOfId spliceStart
  split
  · next h1 =>
    have h0 : ¬ ((indexOfId id els : Int) < 0) := by omega
    simp only [h0, ↓reduceIte, Int.toNat_ofNat]
    omega
  · simp only [Int.reduceNeg, Int.reduceLT, ↓reduceIte]
    omega

theorem handleElementDrop_ofElements (els : List Element) (sourceId targetId n : Int)
    (storage : Option String) (hne : sourceId ≠ targetId) (h0 : sourceId ≠ 0)
    (ha : spliceStart els.length (findIndexOfId sourceId els) < els.length) :
    handleElementDrop targetId
        { elements := ofElements els, draggedItem := some (.element sourceId), nextId := n,
          storage := storage } =
      { state :=
          { elements := ofElements
              ((els.eraseIdx (spliceStart els.length (findIndexOfId sourceId els))).insertIdx
                (spliceStart (els.eraseIdx (spliceStart els.length
                  (findIndexOfId sourceId els))).length (findIndexOfId targetId els))
                els[spliceStart els.length (findIndexOfId sourceId els)]),
            draggedItem := none, nextId := n, storage := storage },
        thrown := none } := by
  have ha1 : spliceStart (els.map Element.toJS).length (findIndexOfId sourceId els) <
      (els.map Element.toJS).length := by simpa using ha
  simp only [handleElementDrop, DraggedItem.idFalsy, h0, hne, decide_False, Bool.false_eq_true,
    ↓reduceIte, findIndex_ofElements]
  simp only [ofElements, spread, splice_remove_at _ _ ha1, List.headD_cons, splice_insert_at,
    List.getElem_map, map_eraseIdx_toJS, map_insertIdx_toJS, List.length_map]

theorem handleElementDrop_guard (st : State) (sourceId targetId : Int)
    (hd : st.draggedItem = some (.element sourceId)) (h : sourceId = 0 ∨ sourceId = targetId) :
    handleElementDrop targetId st = { state := st, thrown := none } := by
  rcases h with h | h
  · simp [handleElementDrop, hd, DraggedItem.idFalsy, h]
  · by_cases h0 : sourceId = 0
    · simp [handleElementDrop, hd, DraggedItem.idFalsy, h0]
    · simp [handleElementDrop, hd, DraggedItem.idFalsy, h0, h]

theorem handleElementDrop_perm (els : List Element) (sourceId targetId n : Int)
    (storage : Option String) (hne : els ≠ []) :
    ∃ res : List Element,
      (handleElementDrop targetId
        { elements := ofElements els, draggedItem := some (.element sourceId), nextId := n,
          storage := storage }).state.elements = ofElements res ∧ res.Perm els := by
  by_cases h0 : sourceId = 0
  · exact ⟨els, by simp [handleElementDrop, DraggedItem.idFalsy, h0], List.Perm.refl _⟩
  by_cases h1 : sourceId = targetId
  · exact ⟨els, by simp [handleElementDrop, DraggedItem.idFalsy, h0, h1], List.Perm.refl _⟩
  have ha := spliceStart_findIndexOfId sourceId els hne
  refine ⟨_, by rw [handleElementDrop_ofElements els sourceId targetId n storage h1 h0 ha], ?_⟩
  refine (List.perm_insertIdx _ _ (spliceStart_le _ _)).trans ?_
  have := List.eraseIdx_eq_take_drop_succ els (spliceStart els.length (findIndexOfId sourceId els))
  rw [this]
  refine List.perm_middle.symm.trans ?_
  rw [← List.drop_eq_getElem_cons ha, List.take_append_drop]

end DragDropBuilder

namespace DragDropBuilder

/-- C1, as stated, fails.  On `[{1,A},{2,B},{3,C}]` the drop of element 1 on
element 3 yields `[{2,B},{3,C},{1,A}]`, which is not the `[{2,B},{1,A},{3,C}]`
that reinsertion at the post-removal index of the target gives; and on
`[{0,A},{1,B},{2,C}]` the element with the id `0` dropped on element 2 is not
moved at all. -/
theorem reorder_post_removal_index_counterexample :
    (handleElementDrop 3
        { elements := ofElements [⟨1, "Heading", "A"⟩, ⟨2, "Heading", "B"⟩, ⟨3, "Heading", "C"⟩],
          draggedItem := some (.element 1), nextId := 4, storage := none }).state.elements
      = ofElements [⟨2, "Heading", "B"⟩, ⟨3, "Heading", "C"⟩, ⟨1, "Heading", "A"⟩] ∧
    reorderSpec 1 3 [⟨1, "Heading", "A"⟩, ⟨2, "Heading", "B"⟩, ⟨3, "Heading", "C"⟩]
      = [⟨2, "Heading", "B"⟩, ⟨1, "Heading", "A"⟩, ⟨3, "Heading", "C"⟩] ∧
    (handleElementDrop 3
        { elements := ofElements [⟨1, "Heading", "A"⟩, ⟨2, "Heading", "B"⟩, ⟨3, "Heading", "C"⟩],
          draggedItem := some (.element 1), nextId := 4, storage := none }).state.elements
      ≠ ofElements
          (reorderSpec 1 3 [⟨1, "Heading", "A"⟩, ⟨2, "Heading", "B"⟩, ⟨3, "Heading", "C"⟩]) ∧
    (handleElementDrop 2
        { elements := ofElements [⟨0, "Heading", "A"⟩, ⟨1, "Heading", "B"⟩, ⟨2, "Heading", "C"⟩],
          draggedItem := some (.element 0), nextId := 3, storage := none }).state.elements
      = ofElements [⟨0, "Heading", "A"⟩, ⟨1, "Heading", "B"⟩, ⟨2, "Heading", "C"⟩] ∧
    reorderSpec 0 2 [⟨0, "Heading", "A"⟩, ⟨1, "Heading", "B"⟩, ⟨2, "Heading", "C"⟩]
      = [⟨1, "Heading", "B"⟩, ⟨0, "Heading", "A"⟩, ⟨2, "Heading", "C"⟩] := by
  refine ⟨rfl, by decide, ?_, rfl, by decide⟩
  have h : (handleElementDrop 3
        { elements := ofElements [⟨1, "Heading", "A"⟩, ⟨2, "Heading", "B"⟩, ⟨3, "Heading", "C"⟩],
          draggedItem := some (.element 1), nextId := 4, storage := none }).state.elements
      = ofElements [⟨2, "Heading", "B"⟩, ⟨3, "Heading", "C"⟩, ⟨1, "Heading", "A"⟩] := rfl
  have h2 : reorderSpec 1 3 [⟨1, "Heading", "A"⟩, ⟨2, "Heading", "B"⟩, ⟨3, "Heading", "C"⟩]
      = [⟨2, "Heading", "B"⟩, ⟨1, "Heading", "A"⟩, ⟨3, "Heading", "C"⟩] := by decide
  rw [h, h2]
  simp [ofElements, Element.toJS]

/-- C1, amended.  For a collection with pairwise distinct ids and
`sourceId ≠ targetId`, `sourceId ≠ 0`, both occurring in it, the drop removes
the source element `e` and reinserts it at the index that `targetId` had before
the removal: in the new collection `e` stands at that index, and taking it out
there leaves the old collection without `e`. -/
theorem handleElementDrop_moves_to_target_index (els : List Element)
    (sourceId targetId n : Int) (storage : Option String)
    (_hnodup : (els.map (fun e => e.id)).Nodup) (hne : sourceId ≠ targetId)
    (h0 : sourceId ≠ 0) (hs : sourceId ∈ els.map (fun e => e.id))
    (ht : targetId ∈ els.map (fun e => e.id)) :
    ∃ (e : Element) (res : List Element),
      els[indexOfId sourceId els]? = some e ∧ e.id = sourceId ∧
      handleElementDrop targetId
          { elements := ofElements els, draggedItem := some (.element sourceId), nextId := n,
            storage := storage } =
        { state := { elements := ofElements res, draggedItem := none, nextId := n,
                     storage := storage },
          thrown := none } ∧
      res[indexOfId targetId els]? = some e ∧
      res.eraseIdx (indexOfId targetId els) = els.eraseIdx (indexOfId sourceId els) := by
  have hs1 := (indexOfId_lt_iff sourceId els).2 hs
  have ht1 := (indexOfId_lt_iff targetId els).2 ht
  have hlen : indexOfId targetId els ≤ (els.eraseIdx (indexOfId sourceId els)).length := by
    rw [List.length_eraseIdx_of_lt hs1]
    omega
  refine ⟨els[indexOfId sourceId els], _, ?_, getElem_indexOfId sourceId els hs1,
    handleElementDrop_found els sourceId targetId n storage hne h0 hs1 ht1, ?_, ?_⟩
  · simp [hs1]
  · have hl := List.length_insertIdx (a := els[indexOfId sourceId els]) _ _ hlen
    rw [List.getElem?_eq_getElem (by omega)]
    simp [List.getElem_insertIdx_self _ _ _ hlen]
  · exact List.eraseIdx_insertIdx _ _

/-- The amended C1 at `[{1,A},{2,B},{3,C}]` with source 1 and target 3. -/
theorem handleElementDrop_moves_to_target_index_witness :
    ∃ (e : Element) (res : List Element),
      [(⟨1, "Heading", "A"⟩ : Element), ⟨2, "Heading", "B"⟩, ⟨3, "Heading", "C"⟩][
          indexOfId 1 [⟨1, "Heading", "A"⟩, ⟨2, "Heading", "B"⟩, ⟨3, "Heading", "C"⟩]]?
        = some e ∧ e.id = 1 ∧
      handleElementDrop 3
          { elements := ofElements [⟨1, "Heading", "A"⟩, ⟨2, "Heading", "B"⟩, ⟨3, "Heading", "C"⟩],
            draggedItem := some (.element 1), nextId := 4, storage := none } =
        { state := { elements := ofElements res, draggedItem := none, nextId := 4,
                     storage := none },
          thrown := none } ∧
      res[indexOfId 3 [⟨1, "Heading", "A"⟩, ⟨2, "Heading", "B"⟩, ⟨3, "Heading", "C"⟩]]? = some e ∧
      res.eraseIdx (indexOfId 3 [⟨1, "Heading", "A"⟩, ⟨2, "Heading", "B"⟩, ⟨3, "Heading", "C"⟩])
        = [(⟨1, "Heading", "A"⟩ : Element), ⟨2, "Heading", "B"⟩, ⟨3, "Heading", "C"⟩].eraseIdx
            (indexOfId 1 [⟨1, "Heading", "A"⟩, ⟨2, "Heading", "B"⟩, ⟨3, "Heading", "C"⟩]) :=
  handleElementDrop_moves_to_target_index
    [⟨1, "Heading", "A"⟩, ⟨2, "Heading", "B"⟩, ⟨3, "Heading", "C"⟩] 1 3 4 none
    (by decide) (by decide) (by decide) (by decide) (by decide)

end DragDropBuilder

namespace DragDropBuilder

/-- C5. The code at the failing input: on `[{1,A},{2,B},{3,C}]` a drop on
element 1 while the session carries the id 9, which no element has, moves the
last element to the front instead of leaving the collection unchanged. -/
theorem handleElementDrop_unknown_source_moves_last :
    (handleElementDrop 1
        { elements := ofElements [⟨1, "Heading", "A"⟩, ⟨2, "Heading", "B"⟩, ⟨3, "Heading", "C"⟩],
          draggedItem := some (.element 9), nextId := 4, storage := none }).state.elements
      = ofElements [⟨3, "Heading", "C"⟩, ⟨1, "Heading", "A"⟩, ⟨2, "Heading", "B"⟩] ∧
    (handleElementDrop 1
        { elements := ofElements [⟨1, "Heading", "A"⟩, ⟨2, "Heading", "B"⟩, ⟨3, "Heading", "C"⟩],
          draggedItem := some (.element 9), nextId := 4, storage := none }).state.elements
      ≠ ofElements [⟨1, "Heading", "A"⟩, ⟨2, "Heading", "B"⟩, ⟨3, "Heading", "C"⟩] := by
  have h : (handleElementDrop 1
        { elements := ofElements [⟨1, "Heading", "A"⟩, ⟨2, "Heading", "B"⟩, ⟨3, "Heading", "C"⟩],
          draggedItem := some (.element 9), nextId := 4, storage := none }).state.elements
      = ofElements [⟨3, "Heading", "C"⟩, ⟨1, "Heading", "A"⟩, ⟨2, "Heading", "B"⟩] := rfl
  refine ⟨h, ?_⟩
  rw [h]
  simp [ofElements, Element.toJS]

theorem handleElementDrop_ofElements_thrown (els : List Element) (d : Option DraggedItem)
    (targetId n : Int) (storage : Option String) :
    (handleElementDrop targetId
      { elements := ofElements els, draggedItem := d, nextId := n,
        storage := storage }).thrown = none := by
  simp only [handleElementDrop]
  split
  · rfl
  · split
    · rfl
    · split
      · rfl
      · split
        · rfl
        · simp only [findIndex_ofElements]
          simp [ofElements, spread]

/-- The two handlers of a drop on an element one after the other, each on the
state the one before has left, end in the same state as `dropOnElement`. -/
theorem dropOnElement_state_eq_sequential (targetId : Int) (st : State) :
    (dropOnElement targetId st).state =
      (handleCanvasDrop (handleElementDrop targetId st).state).state := by
  obtain ⟨els, d, n, storage⟩ := st
  cases d with
  | none => simp [dropOnElement, handleElementDrop, handleCanvasDrop]
  | some d =>
    cases d with
    | sidebar t => simp [dropOnElement, handleElementDrop, DraggedItem.idFalsy]
    | element id =>
      simp only [dropOnElement, handleElementDrop, DraggedItem.idFalsy]
      split
      · simp [handleCanvasDrop]
      · split
        · simp [handleCanvasDrop]
        · split
          · simp [handleCanvasDrop]
          · split
            · simp [handleCanvasDrop]
            · split
              · simp [handleCanvasDrop]
              · simp [handleCanvasDrop]

/-- C6, as stated, fails.  On `[{1,A}]` with the counter at 2, the drop of a
Heading from the sidebar on element 1 is ignored by `handleElementDrop` and then
handled by `handleCanvasDrop`, to which the event bubbles: the collection gains
`{2, Heading, New Heading}` and is not unchanged. -/
theorem dropOnElement_sidebar_inserts_counterexample :
    (dropOnElement 1
        { elements := ofElements [⟨1, "Heading", "A"⟩], draggedItem := some (.sidebar "Heading"),
          nextId := 2, storage := none }) =
      { state := { elements := ofElements [⟨1, "Heading", "A"⟩, ⟨2, "Heading", "New Heading"⟩],
                   draggedItem := none, nextId := 3, storage := none },
        thrown := none } ∧
    ofElements [⟨1, "Heading", "A"⟩, ⟨2, "Heading", "New Heading"⟩]
      ≠ ofElements [⟨1, "Heading", "A"⟩] := by
  refine ⟨rfl, ?_⟩
  simp [ofElements]

/-- C6, amended.  For every collection, counter `n`, active drag session and
`targetId`, the drop on an element throws nothing and leaves the controller
idle.  With a sidebar session of type `t` the canvas handler, which the event
reaches too, appends `{ id: n, type: t, content: "New " + t }` and the counter
becomes `n + 1`; with the session of a placed element the collection is the one
that `handleElementDrop`, the reorder, yields and the counter is unchanged. -/
theorem dropOnElement_spec (els : List Element) (n : Int) (storage : Option String)
    (d : DraggedItem) (targetId : Int) :
    dropOnElement targetId
        { elements := ofElements els, draggedItem := some d, nextId := n, storage := storage } =
      (match d with
       | .sidebar t =>
         { state := { elements := ofElements (els ++ [⟨n, t, "New " ++ t⟩]), draggedItem := none,
                      nextId := n + 1, storage := storage },
           thrown := none }
       | .element id =>
         { state :=
             { elements :=
                 (handleElementDrop targetId
                   { elements := ofElements els, draggedItem := some (.element id), nextId := n,
                     storage := storage }).state.elements,
               draggedItem := none, nextId := n, storage := storage },
           thrown := none }) := by
  cases d with
  | sidebar t =>
    simp [dropOnElement, handleElementDrop, DraggedItem.idFalsy, handleCanvasDrop, ofElements,
      spread]
  | element id =>
    have ht := handleElementDrop_ofElements_thrown els (some (.element id)) targetId n storage
    simp only [dropOnElement, ht]
    simp [handleCanvasDrop]

/-- The splices on the empty collection, which no rendered element can hand to
`handleElementDrop`: both `findIndex` calls give `-1`, nothing is removed, and
the `undefined` taken for the removed element is inserted. -/
theorem handleElementDrop_empty_inserts_undefined :
    (handleElementDrop 2
        { elements := ofElements [], draggedItem := some (.element 1), nextId := 1,
          storage := none }).state.elements = .arr [.undefined] :=
  rfl

/-- C7. `handleElementDrop` is the `onDrop` of a rendered element, and elements
are rendered only when the collection is not empty.  For every such collection
and every pair of ids, the drop with the session of a placed element throws
nothing and the collection after it is a permutation of the collection before
it: the same elements with the same ids, types and contents, the same length,
only the positions may differ. -/
theorem reorder_is_permutation (els : List Element) (sourceId targetId n : Int)
    (storage : Option String) (hrendered : els ≠ []) :
    ∃ res : List Element,
      (handleElementDrop targetId
          { elements := ofElements els, draggedItem := some (.element sourceId), nextId := n,
            storage := storage }).state.elements = ofElements res ∧
      (handleElementDrop targetId
          { elements := ofElements els, draggedItem := some (.element sourceId), nextId := n,
            storage := storage }).thrown = none ∧
      res.Perm els ∧ res.length = els.length := by
  obtain ⟨res, hres, hperm⟩ := handleElementDrop_perm els sourceId targetId n storage hrendered
  exact ⟨res, hres,
    handleElementDrop_ofElements_thrown els (some (.element sourceId)) targetId n storage,
    hperm, hperm.length_eq⟩

/-- C7 at `[{1,A},{2,B},{3,C}]` with the ids 9 and 1, of which no element has
the first. -/
theorem reorder_is_permutation_witness :
    ∃ res : List Element,
      (handleElementDrop 1
          { elements := ofElements [⟨1, "Heading", "A"⟩, ⟨2, "Heading", "B"⟩, ⟨3, "Heading", "C"⟩],
            draggedItem := some (.element 9), nextId := 4,
            storage := none }).state.elements = ofElements res ∧
      (handleElementDrop 1
          { elements := ofElements [⟨1, "Heading", "A"⟩, ⟨2, "Heading", "B"⟩, ⟨3, "Heading", "C"⟩],
            draggedItem := some (.element 9), nextId := 4, storage := none }).thrown = none ∧
      res.Perm [⟨1, "Heading", "A"⟩, ⟨2, "Heading", "B"⟩, ⟨3, "Heading", "C"⟩] ∧
      res.length = ([⟨1, "Heading", "A"⟩, ⟨2, "Heading", "B"⟩, ⟨3, "Heading", "C"⟩] :
        List Element).length :=
  reorder_is_permutation [⟨1, "Heading", "A"⟩, ⟨2, "Heading", "B"⟩, ⟨3, "Heading", "C"⟩]
    9 1 4 none (by decide)

/-- C8. A drop on the canvas with an active session throws nothing and clears
the session.  With a sidebar session of type `t` the collection gains exactly
the element `{ id: n, type: t, content: "New " + t }` at its end and the counter
becomes `n + 1`; with an element session the collection and the counter are
unchanged.  From the empty store the first Heading is
`{ id: 1, type: "Heading", content: "New Heading" }`. -/
theorem handleCanvasDrop_spec (els : List Element) (n : Int) (storage : Option String)
    (d : DraggedItem) :
    (handleCanvasDrop
        { elements := ofElements els, draggedItem := some d, nextId := n, storage := storage }) =
      (match d with
       | .sidebar t =>
         { state := { elements := ofElements (els ++ [⟨n, t, "New " ++ t⟩]), draggedItem := none,
                      nextId := n + 1, storage := storage },
           thrown := none }
       | .element _ =>
         { state := { elements := ofElements els, draggedItem := none, nextId := n,
                      storage := storage },
           thrown := none }) ∧
    (handleCanvasDrop (handleSidebarDragStart "Heading" (init storage))).state.elements =
      ofElements [⟨1, "Heading", "New Heading"⟩] := by
  refine ⟨?_, rfl⟩
  cases d with
  | sidebar t => simp [handleCanvasDrop, ofElements, spread]
  | element id => simp [handleCanvasDrop]

end DragDropBuilder
namespace DragDropBuilder

theorem editOne_toJS (id : Int) (c : String) (e : Element) :
    editOne id c e.toJS = .ok (if e.id = id then { e with content := c } else e : Element).toJS := by
  simp only [editOne, idIs_toJS]
  by_cases h : e.id = id
  · simp [h, Element.toJS, setProp]
  · simp [h]

theorem mapFrom_editOne_elements (id : Int) (c : String) (els : List Element) :
    mapFrom (editOne id c) (els.map Element.toJS) =
      .ok ((els.map fun e => if e.id = id then { e with content := c } else e).map
        Element.toJS) := by
  induction els with
  | nil => rfl
  | cons e es ih => simp [mapFrom, editOne_toJS, ih]

theorem handleEdit_ofElements (id : Int) (c : String) (els : List Element) (d : Option DraggedItem)
    (n : Int) (storage : Option String) :
    handleEdit id c { elements := ofElements els, draggedItem := d, nextId := n,
                      storage := storage } =
      { state :=
          { elements := ofElements
              (els.map fun e => if e.id = id then { e with content := c } else e),
            draggedItem := d, nextId := n, storage := storage },
        thrown := none } := by
  simp [handleEdit, ofElements, mapFrom_editOne_elements]

theorem map_edit_same (e : Element) (els : List Element) (he : e ∈ els)
    (hnd : (els.map (fun x => x.id)).Nodup) :
    (els.map fun x => if x.id = e.id then { x with content := e.content } else x) = els := by
  have hinj : ∀ x ∈ els, x.id = e.id → x = e := by
    intro x hx hid
    exact List.inj_on_of_nodup_map hnd hx he hid
  calc (els.map fun x => if x.id = e.id then { x with content := e.content } else x)
      = els.map id := by
        apply List.map_congr_left
        intro x hx
        by_cases hid : x.id = e.id
        · have := hinj x hx hid
          subst this
          simp
        · simp [hid]
    _ = els := List.map_id _

end DragDropBuilder

namespace DroppedElement

open DragDropBuilder

/-- C9, as stated, fails for an element whose content is the empty string: its
editor starts with the working text `"Edit this content"`, and begin-edit
followed by commit writes that text into the store. -/
theorem beginEdit_empty_content_counterexample :
    (handleEdit (mount ⟨1, "Heading", ""⟩)).content = "Edit this content" ∧
    (handleEdit (mount ⟨1, "Heading", ""⟩)).content ≠ (⟨1, "Heading", ""⟩ : Element).content ∧
    (handleBlur ⟨1, "Heading", ""⟩ (handleEdit (mount ⟨1, "Heading", ""⟩))
        { elements := ofElements [⟨1, "Heading", ""⟩], draggedItem := none, nextId := 2,
          storage := none }).2.state.elements
      = ofElements [⟨1, "Heading", "Edit this content"⟩] ∧
    (handleBlur ⟨1, "Heading", ""⟩ (handleEdit (mount ⟨1, "Heading", ""⟩))
        { elements := ofElements [⟨1, "Heading", ""⟩], draggedItem := none, nextId := 2,
          storage := none }).2.state.elements
      ≠ ofElements [⟨1, "Heading", ""⟩] := by
  have h : (handleBlur ⟨1, "Heading", ""⟩ (handleEdit (mount ⟨1, "Heading", ""⟩))
        { elements := ofElements [⟨1, "Heading", ""⟩], draggedItem := none, nextId := 2,
          storage := none }).2.state.elements
      = ofElements [⟨1, "Heading", "Edit this content"⟩] := rfl
  refine ⟨rfl, by decide, h, ?_⟩
  rw [h]
  simp [ofElements, Element.toJS]

/-- C9, amended.  For every element whose content is not the empty string, the
editor mounted for it enters edit mode with the working text equal to
`element.content`; on a collection with pairwise distinct ids that holds the
element, begin-edit followed at once by commit ends edit mode, throws nothing
and leaves the store as it was. -/
theorem beginEdit_commit_unchanged (element : Element) (els : List Element)
    (d : Option DraggedItem) (n : Int) (storage : Option String)
    (hcontent : element.content ≠ "") (hmem : element ∈ els)
    (hnodup : (els.map (fun e => e.id)).Nodup) :
    handleEdit (mount element) = { editing := true, content := element.content } ∧
    handleBlur element (handleEdit (mount element))
        { elements := ofElements els, draggedItem := d, nextId := n, storage := storage } =
      ({ editing := false, content := element.content },
       { state := { elements := ofElements els, draggedItem := d, nextId := n,
                    storage := storage },
         thrown := none }) := by
  have h1 : handleEdit (mount element) = { editing := true, content := element.content } := by
    simp [handleEdit, mount, hcontent]
  refine ⟨h1, ?_⟩
  rw [h1]
  simp only [handleBlur, handleEdit_ofElements, map_edit_same element els hmem hnodup]

/-- The amended C9 at the element `{2, Paragraph, B}` of a two-element store. -/
theorem beginEdit_commit_unchanged_witness :
    handleEdit (mount ⟨2, "Paragraph", "B"⟩) = { editing := true, content := "B" } ∧
    handleBlur ⟨2, "Paragraph", "B"⟩ (handleEdit (mount ⟨2, "Paragraph", "B"⟩))
        { elements := ofElements [⟨1, "Heading", "A"⟩, ⟨2, "Paragraph", "B"⟩],
          draggedItem := none, nextId := 3, storage := none } =
      ({ editing := false, content := "B" },
       { state := { elements := ofElements [⟨1, "Heading", "A"⟩, ⟨2, "Paragraph", "B"⟩],
                    draggedItem := none, nextId := 3, storage := none },
         thrown := none }) :=
  beginEdit_commit_unchanged ⟨2, "Paragraph", "B"⟩
    [⟨1, "Heading", "A"⟩, ⟨2, "Paragraph", "B"⟩] none 3 none (by decide) (by decide) (by decide)

end DroppedElement

namespace DragDropBuilder

theorem ofElements_injective (a b : List Element) (h : ofElements a = ofElements b) : a = b := by
  simp only [ofElements, JSVal.arr.injEq] at h
  refine List.map_injective_iff.2 ?_ h
  intro x y hxy
  cases x
  cases y
  simp only [Element.toJS] at hxy
  simp at hxy
  simp [hxy]

theorem saveHandler_ofElements (els : List Element) (d : Option DraggedItem) (n : Int)
    (storage : Option String) :
    saveHandler { elements := ofElements els, draggedItem := d, nextId := n, storage := storage } =
      { state := { elements := ofElements els, draggedItem := d, nextId := n,
                   storage := JSON.stringify (ofElements els) },
        thrown := none } := by
  simp [saveHandler, JSON.stringify_ofElements]

theorem loadHandler_stringify (old : JSVal) (els : List Element) (d : Option DraggedItem)
    (n : Int) :
    loadHandler { elements := old, draggedItem := d, nextId := n,
                  storage := JSON.stringify (ofElements els) } =
      { state := { elements := ofElements els, draggedItem := d, nextId := n,
                   storage := JSON.stringify (ofElements els) },
        thrown := none } := by
  simp [loadHandler, JSON.stringify_ofElements, JSON.parse_stringify_ofElements]

theorem loadHandler_of_parse_ok (st : State) (raw : String) (v : JSVal)
    (hraw : st.storage = some raw) (hok : JSON.parse raw = .ok v) :
    loadHandler st = { state := { st with elements := v }, thrown := none } := by
  simp [loadHandler, hraw, hok]

/-- C3, as stated, fails.  With no saved entry `loadHandler` throws nothing and
replaces the collection with `null`; with the valid JSON texts `5` and `[5]` it
replaces the collection with the number and with an array of a number.  Only
the text that is not JSON makes it throw and leave the collection alone. -/
theorem load_replaces_with_non_array :
    loadHandler { elements := ofElements [⟨1, "Heading", "A"⟩], draggedItem := none, nextId := 2,
                  storage := none } =
      { state := { elements := .null, draggedItem := none, nextId := 2, storage := none },
        thrown := none } ∧
    JSVal.null ≠ ofElements [⟨1, "Heading", "A"⟩] ∧
    loadHandler { elements := ofElements [⟨1, "Heading", "A"⟩], draggedItem := none, nextId := 2,
                  storage := some "5" } =
      { state := { elements := .num 5, draggedItem := none, nextId := 2, storage := some "5" },
        thrown := none } ∧
    loadHandler { elements := ofElements [⟨1, "Heading", "A"⟩], draggedItem := none, nextId := 2,
                  storage := some "[5]" } =
      { state := { elements := .arr [.num 5], draggedItem := none, nextId := 2,
                   storage := some "[5]" },
        thrown := none } := by
  refine ⟨rfl, ?_, rfl, rfl⟩
  simp [ofElements]

/-- C3, amended.  For every stored value that is not syntactically valid JSON,
`loadHandler` fails with the error of `JSON.parse` and the state, the element
collection included, is exactly what it was before the call. -/
theorem load_invalid_syntax_unchanged (st : State) (raw : String) (e : JSError)
    (hraw : st.storage = some raw) (hbad : JSON.parse raw = .error e) :
    loadHandler st = { state := st, thrown := some e } := by
  simp [loadHandler, hraw, hbad]

/-- The amended C3 at the stored text `not json` (scenario 4). -/
theorem load_invalid_syntax_unchanged_witness :
    loadHandler { elements := ofElements [⟨1, "Heading", "A"⟩], draggedItem := none, nextId := 2,
                  storage := some "not json" } =
      { state := { elements := ofElements [⟨1, "Heading", "A"⟩], draggedItem := none,
                   nextId := 2, storage := some "not json" },
        thrown := some .SyntaxError } :=
  load_invalid_syntax_unchanged _ "not json" .SyntaxError rfl rfl

/-- C4. For every collection of elements, the empty one included, whose ids are
safe integers: saving it throws nothing, and loading the saved string
afterwards, whatever the component holds by then (the same collection, another
one, the empty one of a fresh mount), throws nothing and replaces the
collection with the saved one: the same ids, types and contents in the same
order. -/
theorem load_save_roundtrip (els : List Element) (d : Option DraggedItem) (n : Int)
    (storage : Option String) (old : JSVal) (d1 : Option DraggedItem) (n1 : Int)
    (_hsafe : ∀ e ∈ els, isSafeInteger e.id) :
    (saveHandler { elements := ofElements els, draggedItem := d, nextId := n,
                   storage := storage }).thrown = none ∧
    loadHandler
        { elements := old, draggedItem := d1, nextId := n1,
          storage := (saveHandler { elements := ofElements els, draggedItem := d, nextId := n,
                                    storage := storage }).state.storage } =
      { state :=
          { elements := ofElements els, draggedItem := d1, nextId := n1,
            storage := (saveHandler { elements := ofElements els, draggedItem := d, nextId := n,
                                      storage := storage }).state.storage },
        thrown := none } := by
  rw [saveHandler_ofElements]
  exact ⟨rfl, loadHandler_stringify old els d1 n1⟩

/-- C4 at the collection `[{1, Heading, New Heading}, {2, List, a "b"}]`, saved
and then loaded by a fresh component. -/
theorem load_save_roundtrip_witness :
    (saveHandler
        { elements := ofElements [⟨1, "Heading", "New Heading"⟩, ⟨2, "List", "a \"b\""⟩],
          draggedItem := none, nextId := 3, storage := none }).thrown = none ∧
    loadHandler
        { elements := .arr [], draggedItem := none, nextId := 1,
          storage := (saveHandler
            { elements := ofElements [⟨1, "Heading", "New Heading"⟩, ⟨2, "List", "a \"b\""⟩],
              draggedItem := none, nextId := 3, storage := none }).state.storage } =
      { state :=
          { elements := ofElements [⟨1, "Heading", "New Heading"⟩, ⟨2, "List", "a \"b\""⟩],
            draggedItem := none, nextId := 1,
            storage := (saveHandler
              { elements := ofElements [⟨1, "Heading", "New Heading"⟩, ⟨2, "List", "a \"b\""⟩],
                draggedItem := none, nextId := 3, storage := none }).state.storage },
        thrown := none } :=
  load_save_roundtrip [⟨1, "Heading", "New Heading"⟩, ⟨2, "List", "a \"b\""⟩] none 3 none
    (.arr []) none 1 (by
      intro e he
      simp only [List.mem_cons, List.mem_singleton, List.not_mem_nil, or_false] at he
      rcases he with he | he <;> subst he <;> simp [isSafeInteger])

/-- C10, as stated, fails.  A fresh component (counter 1) that loads the saved
snapshot `[{1, Heading}]` still has the counter 1, not 2, and the next element
dropped from the sidebar gets the id 1 a second time. -/
theorem load_keeps_counter_counterexample :
    (loadHandler (init (JSON.stringify (ofElements [⟨1, "Heading", "New Heading"⟩])))).state.elements
      = ofElements [⟨1, "Heading", "New Heading"⟩] ∧
    (loadHandler (init (JSON.stringify (ofElements [⟨1, "Heading", "New Heading"⟩])))).state.nextId
      = 1 ∧
    (handleCanvasDrop (handleSidebarDragStart "Paragraph"
        (loadHandler (init (JSON.stringify
          (ofElements [⟨1, "Heading", "New Heading"⟩])))).state)).state.elements
      = ofElements [⟨1, "Heading", "New Heading"⟩, ⟨1, "Paragraph", "New Paragraph"⟩] ∧
    ¬ (([⟨1, "Heading", "New Heading"⟩, ⟨1, "Paragraph", "New Paragraph"⟩] :
        List Element).map (fun e => e.id)).Nodup := by
  refine ⟨rfl, rfl, rfl, by decide⟩

/-- C10, amended.  For every snapshot with pairwise distinct ids and every
counter value, `loadHandler` replaces the collection with the snapshot and
leaves the counter as it was; when the counter is above every id of the
snapshot, the next element dropped from the sidebar gets an id that does not
occur in the loaded collection and the ids stay pairwise distinct. -/
theorem load_then_insert_keeps_ids_distinct (old : JSVal) (els : List Element)
    (d : Option DraggedItem) (n : Int) (type : String)
    (hnodup : (els.map (fun e => e.id)).Nodup) (habove : ∀ e ∈ els, e.id < n) :
    loadHandler { elements := old, draggedItem := d, nextId := n,
                  storage := JSON.stringify (ofElements els) } =
      { state := { elements := ofElements els, draggedItem := d, nextId := n,
                   storage := JSON.stringify (ofElements els) },
        thrown := none } ∧
    handleCanvasDrop (handleSidebarDragStart type
        (loadHandler { elements := old, draggedItem := d, nextId := n,
                       storage := JSON.stringify (ofElements els) }).state) =
      { state := { elements := ofElements (els ++ [⟨n, type, "New " ++ type⟩]),
                   draggedItem := none, nextId := n + 1,
                   storage := JSON.stringify (ofElements els) },
        thrown := none } ∧
    n ∉ els.map (fun e => e.id) ∧
    ((els ++ [(⟨n, type, "New " ++ type⟩ : Element)]).map (fun e => e.id)).Nodup := by
  have hn : n ∉ els.map (fun e => e.id) := by
    intro hmem
    obtain ⟨e, he, hid⟩ := List.mem_map.1 hmem
    have := habove e he
    omega
  refine ⟨loadHandler_stringify old els d n, ?_, hn, ?_⟩
  · rw [loadHandler_stringify]
    simp [handleCanvasDrop, handleSidebarDragStart, ofElements, spread]
  · rw [List.map_append, List.nodup_append]
    refine ⟨hnodup, by simp, ?_⟩
    intro a ha hb
    simp at hb
    subst hb
    exact hn ha

/-- The amended C10 at the snapshot `[{1, Heading}]` with the counter at 2. -/
theorem load_then_insert_keeps_ids_distinct_witness :
    loadHandler { elements := .arr [], draggedItem := none, nextId := 2,
                  storage := JSON.stringify (ofElements [⟨1, "Heading", "New Heading"⟩]) } =
      { state := { elements := ofElements [⟨1, "Heading", "New Heading"⟩], draggedItem := none,
                   nextId := 2,
                   storage := JSON.stringify (ofElements [⟨1, "Heading", "New Heading"⟩]) },
        thrown := none } ∧
    handleCanvasDrop (handleSidebarDragStart "Paragraph"
        (loadHandler { elements := .arr [], draggedItem := none, nextId := 2,
                       storage := JSON.stringify
                         (ofElements [⟨1, "Heading", "New Heading"⟩]) }).state) =
      { state := { elements := ofElements ([⟨1, "Heading", "New Heading"⟩] ++
                     [⟨2, "Paragraph", "New " ++ "Paragraph"⟩]),
                   draggedItem := none, nextId := 2 + 1,
                   storage := JSON.stringify (ofElements [⟨1, "Heading", "New Heading"⟩]) },
        thrown := none } ∧
    (2 : Int) ∉ ([⟨1, "Heading", "New Heading"⟩] : List Element).map (fun e => e.id) ∧
    ((([⟨1, "Heading", "New Heading"⟩] : List Element) ++
        [(⟨2, "Paragraph", "New " ++ "Paragraph"⟩ : Element)]).map (fun e => e.id)).Nodup :=
  load_then_insert_keeps_ids_distinct (.arr []) [⟨1, "Heading", "New Heading"⟩] none 2
    "Paragraph" (by decide) (by decide)

end DragDropBuilder
